import Mathlib

set_option maxRecDepth 16384

/-!
Verification of the `lodmods` BPE codec and MRG container engine
(`game_file_handler.py`), as a shallow embedding in Lean.

Bytes are modelled as `Nat` (Python `bytes` elements are integers 0..255;
where a property needs the bound it is taken as a hypothesis).  Python
dictionaries `dict_leftch` / `dict_rightch` of `_compress_block`, whose
values are either a byte or the empty string `''`, are modelled as
`Nat → Option Nat` with `none` standing for `''`.  A raised exception is
modelled by an `Option`/`Except` error result.
-/

/-! ### Python's stable `sorted`

`_sort_keys` uses Python's `sorted`, a stable sort by a key function.  We
embed it as a stable insertion sort parameterised by the corresponding
total boolean "less or equal" relation: an element is inserted before the
first already-placed element it is `le`-below, so elements that compare
equal keep their original relative order, exactly as Python's sort does. -/

def insertStable (le : α → α → Bool) (x : α) : List α → List α
  | [] => [x]
  | y :: ys => if le x y then x :: y :: ys else y :: insertStable le x ys

def pySorted (le : α → α → Bool) (l : List α) : List α :=
  l.foldr (insertStable le) []

theorem insertStable_perm (le : α → α → Bool) (x : α) (l : List α) :
    (insertStable le x l).Perm (x :: l) := by
  induction l with
  | nil => simp [insertStable]
  | cons y ys ih =>
    simp only [insertStable]
    split
    · exact List.Perm.refl _
    · exact ((ih.cons y).trans (List.Perm.swap x y ys))

theorem pySorted_perm (le : α → α → Bool) (l : List α) :
    (pySorted le l).Perm l := by
  induction l with
  | nil => simp [pySorted]
  | cons x xs ih =>
    simpa [pySorted] using (insertStable_perm le x (pySorted le xs)).trans (ih.cons x)

theorem insertStable_pairwise (le : α → α → Bool)
    (htot : ∀ a b, le a b = true ∨ le b a = true)
    (htrans : ∀ a b c, le a b = true → le b c = true → le a c = true)
    (x : α) (l : List α)
    (hl : l.Pairwise (fun a b => le a b = true)) :
    (insertStable le x l).Pairwise (fun a b => le a b = true) := by
  induction l with
  | nil => simp [insertStable]
  | cons y ys ih =>
    simp only [insertStable]
    rcases List.pairwise_cons.mp hl with ⟨hy, hys⟩
    split
    · refine List.pairwise_cons.mpr ⟨?_, hl⟩
      intro b hb
      rcases List.mem_cons.mp hb with rfl | hb
      · assumption
      · exact htrans x y b ‹le x y = true› (hy b hb)
    · refine List.pairwise_cons.mpr ⟨?_, ih hys⟩
      intro b hb
      have : b = x ∨ b ∈ ys := by
        have := (insertStable_perm le x ys).mem_iff.mp hb
        simpa using this
      rcases this with rfl | hbys
      · rcases htot b y with h | h
        · exact absurd h (by simpa using ‹¬ le b y = true›)
        · exact h
      · exact hy b hbys

theorem pySorted_pairwise (le : α → α → Bool)
    (htot : ∀ a b, le a b = true ∨ le b a = true)
    (htrans : ∀ a b c, le a b = true → le b c = true → le a c = true)
    (l : List α) :
    (pySorted le l).Pairwise (fun a b => le a b = true) := by
  induction l with
  | nil => simp [pySorted]
  | cons x xs ih =>
    simpa [pySorted] using insertStable_pairwise le htot htrans x _ (by simpa [pySorted] using ih)

/-- The head of a stably sorted list is `le`-below every element of the
original list (head minimality, used for the "most frequent pair" claims). -/
theorem pySorted_head_min (le : α → α → Bool)
    (htot : ∀ a b, le a b = true ∨ le b a = true)
    (htrans : ∀ a b c, le a b = true → le b c = true → le a c = true)
    (l : List α) (h : α) (hh : (pySorted le l).head? = some h) :
    ∀ y ∈ l, le h y = true := by
  intro y hy
  have hmem : y ∈ pySorted le l := (pySorted_perm le l).mem_iff.mpr hy
  rcases hs : pySorted le l with _ | ⟨a, t⟩
  · rw [hs] at hmem; simp at hmem
  · rw [hs] at hh hmem
    simp only [List.head?] at hh
    cases hh
    have hp := pySorted_pairwise le htot htrans l
    rw [hs] at hp
    rcases List.mem_cons.mp hmem with rfl | hyt
    · rcases htot y y with h' | h' <;> exact h'
    · exact (List.pairwise_cons.mp hp).1 y hyt

/-! ### BPE compressor, pair-assignment phase

Embedding of the dictionary-building phase of `_compress_block`
(`game_file_handler.py` lines 575-637).  The serialisation of the finished
dictionary (lines 639-737) follows in the source but is not needed for the
claims below: the failure exhibited for claim C1 is raised inside this
phase, before serialisation is reached. -/

/-- One update of `bp_count_dict` (lines 614-617): dictionaries preserve
insertion order in Python, so the count dictionary is an association list;
a new pair is appended, an existing pair's count is incremented in place. -/
def bumpPair (l : List ((Nat × Nat) × Nat)) (p : Nat × Nat) : List ((Nat × Nat) × Nat) :=
  match l with
  | [] => [(p, 1)]
  | (q, c) :: t => if q = p then (q, c + 1) :: t else (q, c) :: bumpPair t p

/-- The pair-counting pass (lines 608-617): every adjacent byte pair of the
block is counted, in first-occurrence order.  The `IndexError` on
`curr_block[i + 1]` stops the scan at the last byte, so exactly the pairs
`zip block block.tail` are counted. -/
def countPairs (blk : List Nat) : List ((Nat × Nat) × Nat) :=
  (blk.zip blk.tail).foldl bumpPair []

/-- Boolean "less or equal" relation matching the Python `sorted` key of
`_sort_keys` (lines 129-148) for each `sort_order`: always by descending
count first; orders 1-4 then break ties by first byte
ascending/descending, then second byte ascending/descending.  Any
`sort_order` other than 0-3 takes the final branch, as in the source. -/
def sortKeysLe (sort_order : Nat) (a b : (Nat × Nat) × Nat) : Bool :=
  if sort_order = 0 then decide (b.2 ≤ a.2)
  else if sort_order = 1 then
    decide (b.2 < a.2 ∨ (a.2 = b.2 ∧ (a.1.1 < b.1.1 ∨ (a.1.1 = b.1.1 ∧ a.1.2 ≤ b.1.2))))
  else if sort_order = 2 then
    decide (b.2 < a.2 ∨ (a.2 = b.2 ∧ (b.1.1 < a.1.1 ∨ (a.1.1 = b.1.1 ∧ a.1.2 ≤ b.1.2))))
  else if sort_order = 3 then
    decide (b.2 < a.2 ∨ (a.2 = b.2 ∧ (a.1.1 < b.1.1 ∨ (a.1.1 = b.1.1 ∧ b.1.2 ≤ a.1.2))))
  else
    decide (b.2 < a.2 ∨ (a.2 = b.2 ∧ (b.1.1 < a.1.1 ∨ (a.1.1 = b.1.1 ∧ b.1.2 ≤ a.1.2))))

/-- `_sort_keys` (lines 103-150): the `(byte pair, count)` entries of the
count dictionary, stably sorted by the selected ordering. -/
def sort_keys (count_list : List ((Nat × Nat) × Nat)) (sort_order : Nat) :
    List ((Nat × Nat) × Nat) :=
  pySorted (sortKeysLe sort_order) count_list

/-- Initial `dict_leftch` of `_compress_block` (lines 581-588): every byte
value occurring in the block maps to itself, all other keys hold `''`
(`none`).  `dict_rightch` starts as all-`''`. -/
def leftchInit (blk : List Nat) : Nat → Option Nat :=
  fun k => if k ∈ blk then some k else none

/-- `empty_keys` (lines 591-592): the keys holding `''` in `dict_leftch`,
excluding `0xff`.  Python keeps the list ascending and pops from the end;
we keep it in descending order so that `pop(-1)` is the head. -/
def emptyKeysDesc (blk : List Nat) : List Nat :=
  ((List.range 0x100).filter (fun k => (leftchInit blk k).isNone && (k != 0xff))).reverse

/-- Pointwise dictionary update, `dict[k] = v`. -/
def updFn (f : Nat → Option Nat) (k v : Nat) : Nat → Option Nat :=
  fun x => if x = k then some v else f x

/-- Python `bytes.replace(byte_pair, key)` (line 634): replaces
non-overlapping occurrences of the two-byte pattern `x y` left to right by
the single byte `k`. -/
def replacePair : List Nat → Nat → Nat → Nat → List Nat
  | a :: b :: rest, x, y, k =>
    if a = x ∧ b = y then k :: replacePair rest x y k
    else a :: replacePair (b :: rest) x y k
  | l, _, _, _ => l

/-- The pair-assignment loop of `_compress_block` (lines 606-637).  Each
round recounts the pairs of the current block, sorts them, and examines
the head of the sorted list (`bp_count_list[0]`, line 629): if the list is
empty, Python raises `IndexError`, modelled by `none`.  When the top count
is at least 5 and a free key remains, the pair is assigned to the largest
free key, all its occurrences are replaced, and the loop repeats;
otherwise the loop breaks with the current state
`(dict_leftch, dict_rightch, empty_keys, curr_block)`. -/
def pairLoop (sort_order : Nat) (lc rc : Nat → Option Nat) :
    List Nat → List Nat →
    Option ((Nat → Option Nat) × (Nat → Option Nat) × List Nat × List Nat)
  | ek, blk =>
    match (sort_keys (countPairs blk) sort_order).head? with
    | none => none
    | some (p, c) =>
      if 5 ≤ c then
        match ek with
        | [] => some (lc, rc, [], blk)
        | k :: rest =>
          pairLoop sort_order (updFn lc k p.1) (updFn rc k p.2) rest
            (replacePair blk p.1 p.2 k)
      else some (lc, rc, ek, blk)

/-- The whole pair-assignment phase of `_compress_block` (lines 575-637):
build the initial dictionaries and free-key list, then run the loop.
`last_empty_key = empty_keys[-1]` (line 593) raises `IndexError` when no
free key exists at all, modelled by the `none` branch. -/
def pairDicts (sort_order : Nat) (blk : List Nat) :
    Option ((Nat → Option Nat) × (Nat → Option Nat) × List Nat × List Nat) :=
  let ek := emptyKeysDesc blk
  if ek = [] then none
  else pairLoop sort_order (leftchInit blk) (fun _ => none) ek blk

/-- Claim C1 (code_bug evidence): on the one-byte block `b'\x41'` — a
legal decompressed block, e.g. the final block of a decompressed file of
size 0x801 — the compressor's pair phase fails for every tie-break
ordering: the adjacent-pair scan of a single byte leaves `bp_count_dict`
empty, so `bp_count_list[0]` at line 629 raises `IndexError` and no
compressed block is produced, hence `decompress(compress(x)) = x` cannot
hold for this block.  Likewise for a block containing every byte value
0x00-0xff: no free key exists, and `empty_keys[-1]` at line 593 raises
`IndexError` before any pair is assigned. -/
theorem c1_compress_fails_on_single_byte_block :
    (∀ sort_order : Nat, pairDicts sort_order [0x41] = none) ∧
    (∀ sort_order : Nat, pairDicts sort_order (List.range 0x100) = none) := by
  constructor
  · intro sort_order
    rfl
  · intro sort_order
    have hek : emptyKeysDesc (List.range 0x100) = [] := by decide
    simp [pairDicts, hek]

/-! ### Dictionary resolution and the acyclicity invariant (claims C5, C10) -/

/-- Recursive resolution of one key through a byte-pair dictionary, exactly
as the decompressor's unresolved-byte machine does (lines 332-349): a byte
whose effective left character equals itself is a literal; otherwise the
left child is resolved first, then the right child.  The Python machine has
no step bound and diverges on a cyclic dictionary; here `fuel` bounds the
recursion depth and `none` means the bound was exceeded.  For a compressor
dictionary an unassigned key (`lc k = none`) behaves as a literal, which is
how the instruction encoding represents it to the decompressor. -/
def resolveKey (lc rc : Nat → Option Nat) : Nat → Nat → Option (List Nat)
  | 0, _ => none
  | fuel + 1, b =>
    if (lc b).getD b = b then some [b]
    else
      match rc b with
      | none => none
      | some r =>
        match resolveKey lc rc fuel ((lc b).getD b), resolveKey lc rc fuel r with
        | some l1, some l2 => some (l1 ++ l2)
        | _, _ => none

/-- Invariant of the pair-assignment loop: `rank` certifies acyclicity of
the partial dictionary (children of every assigned pair key have strictly
smaller rank), free keys are genuinely free and never occur in the block
nor as a child of any pair, and the rank budget `m` plus the remaining
free keys stays within 255. -/
structure PairInv (lc rc : Nat → Option Nat) (ek blk : List Nat)
    (rank : Nat → Nat) (m : Nat) : Prop where
  bound : ∀ k, rank k ≤ m
  budget : m + ek.length ≤ 255
  pair_child : ∀ k, (rc k).isSome = true →
    ∃ a r, lc k = some a ∧ rc k = some r ∧ a ≠ k ∧ rank a < rank k ∧ rank r < rank k
  lit : ∀ k, rc k = none → lc k = none ∨ lc k = some k
  ek_free : ∀ k ∈ ek, lc k = none ∧ rc k = none ∧ k ∉ blk ∧ k ≠ 0xff
  ek_not_child : ∀ e ∈ ek, ∀ j, (rc j).isSome = true → lc j ≠ some e ∧ rc j ≠ some e
  ek_nodup : ek.Nodup
  ff_none : rc 0xff = none

theorem head?_mem {l : List α} {x : α} (h : l.head? = some x) : x ∈ l := by
  cases l with
  | nil => simp at h
  | cons a t =>
    simp only [List.head?, Option.some.injEq] at h
    exact List.mem_cons.mpr (Or.inl h.symm)

theorem sort_keys_head_mem {cnt : List ((Nat × Nat) × Nat)} {so : Nat}
    {x : (Nat × Nat) × Nat} (h : (sort_keys cnt so).head? = some x) : x ∈ cnt :=
  (pySorted_perm _ cnt).mem_iff.mp (head?_mem h)

theorem bumpPair_mem {l : List ((Nat × Nat) × Nat)} {p q : Nat × Nat} {c : Nat}
    (h : (q, c) ∈ bumpPair l p) : (∃ c', (q, c') ∈ l) ∨ q = p := by
  induction l with
  | nil =>
    simp only [bumpPair, List.mem_singleton, Prod.mk.injEq] at h
    exact Or.inr h.1
  | cons hd t ih =>
    obtain ⟨q0, c0⟩ := hd
    simp only [bumpPair] at h
    split at h
    · rcases List.mem_cons.mp h with h' | h'
      · have hq : q = q0 ∧ c = c0 + 1 := by simpa using h'
        right; rw [hq.1]; assumption
      · exact Or.inl ⟨c, List.mem_cons_of_mem _ h'⟩
    · rcases List.mem_cons.mp h with h' | h'
      · have hq : q = q0 ∧ c = c0 := by simpa using h'
        exact Or.inl ⟨c0, List.mem_cons.mpr (Or.inl (by rw [hq.1]))⟩
      · rcases ih h' with ⟨c', hc'⟩ | h''
        · exact Or.inl ⟨c', List.mem_cons_of_mem _ hc'⟩
        · exact Or.inr h''

theorem countPairs_mem {blk : List Nat} {q : Nat × Nat} {c : Nat}
    (h : (q, c) ∈ countPairs blk) : q.1 ∈ blk ∧ q.2 ∈ blk := by
  have main : ∀ (ps : List (Nat × Nat)) (acc : List ((Nat × Nat) × Nat)) (q : Nat × Nat) (c : Nat),
      (q, c) ∈ ps.foldl bumpPair acc → (∃ c', (q, c') ∈ acc) ∨ q ∈ ps := by
    intro ps
    induction ps with
    | nil => intro acc q c h; exact Or.inl ⟨c, h⟩
    | cons p pt ih =>
      intro acc q c h
      rcases ih _ _ _ h with ⟨c', hc'⟩ | hmem
      · rcases bumpPair_mem hc' with ⟨c'', hc''⟩ | rfl
        · exact Or.inl ⟨c'', hc''⟩
        · exact Or.inr (List.mem_cons_self _ _)
      · exact Or.inr (List.mem_cons_of_mem _ hmem)
  rcases main _ _ _ _ h with ⟨c', hc'⟩ | hmem
  · simp at hc'
  · have := List.of_mem_zip hmem
    exact ⟨this.1, List.mem_of_mem_tail this.2⟩

theorem replacePair_mem {l : List Nat} {x y k b : Nat}
    (h : b ∈ replacePair l x y k) : b ∈ l ∨ b = k := by
  induction l, x, y, k using replacePair.induct with
  | case1 a b' rest x y k hc ih =>
    rw [replacePair, if_pos hc] at h
    rcases List.mem_cons.mp h with rfl | h'
    · exact Or.inr rfl
    · rcases ih h' with h'' | h'' 
      · exact Or.inl (List.mem_cons_of_mem _ (List.mem_cons_of_mem _ h''))
      · exact Or.inr h''
  | case2 a b' rest x y k hc ih =>
    rw [replacePair, if_neg hc] at h
    rcases List.mem_cons.mp h with rfl | h'
    · exact Or.inl (List.mem_cons_self _ _)
    · rcases ih h' with h'' | h''
      · exact Or.inl (List.mem_cons_of_mem _ h'')
      · exact Or.inr h''
  | case3 l x y k hl =>
    rcases l with _ | ⟨a, _ | ⟨b', rest⟩⟩
    · exact Or.inl h
    · exact Or.inl h
    · exact absurd rfl (hl a b' rest)

theorem emptyKeysDesc_length (blk : List Nat) : (emptyKeysDesc blk).length ≤ 255 := by
  have hsub : ((List.range 0x100).filter
      (fun k => (leftchInit blk k).isNone && (k != 0xff))).Sublist
      ((List.range 0x100).filter (fun k => k != 0xff)) := by
    apply List.monotone_filter_right
    intro a ha
    exact (Bool.and_elim_right ha)
  have hlen := hsub.length_le
  have : ((List.range 0x100).filter (fun k => k != 0xff)).length = 255 := by
    rw [show (0x100 : Nat) = 255 + 1 from rfl, List.range_succ, List.filter_append]
    have h255 : (List.range 255).filter (fun k => k != 0xff) = List.range 255 := by
      apply List.filter_eq_self.mpr
      intro a ha
      have := List.mem_range.mp ha
      simp only [bne_iff_ne, ne_eq]
      omega
    simp [h255]
  simp only [emptyKeysDesc, List.length_reverse]
  omega

theorem PairInv.init (blk : List Nat) :
    PairInv (leftchInit blk) (fun _ => none) (emptyKeysDesc blk) blk (fun _ => 0) 0 where
  bound := fun _ => Nat.le_refl 0
  budget := by simpa using emptyKeysDesc_length blk
  pair_child := by intro k h; simp at h
  lit := by
    intro k _
    unfold leftchInit
    split
    · exact Or.inr rfl
    · exact Or.inl rfl
  ek_free := by
    intro k hk
    simp only [emptyKeysDesc, List.mem_reverse, List.mem_filter, List.mem_range,
      Bool.and_eq_true, Option.isNone_iff_eq_none, bne_iff_ne, ne_eq] at hk
    obtain ⟨-, hnone, hff⟩ := hk
    have hnb : k ∉ blk := by
      intro hmem
      simp [leftchInit, hmem] at hnone
    exact ⟨hnone, rfl, hnb, hff⟩
  ek_not_child := by intro e _ j h; simp at h
  ek_nodup := by
    unfold emptyKeysDesc
    exact List.nodup_reverse.mpr (List.Nodup.filter _ (List.nodup_range 0x100))
  ff_none := rfl

theorem PairInv.step {so : Nat} {lc rc : Nat → Option Nat} {kk : Nat}
    {rest blk : List Nat} {rank : Nat → Nat} {m : Nat}
    (inv : PairInv lc rc (kk :: rest) blk rank m)
    {p : Nat × Nat} {c : Nat}
    (hhead : (sort_keys (countPairs blk) so).head? = some (p, c)) :
    PairInv (updFn lc kk p.1) (updFn rc kk p.2) rest (replacePair blk p.1 p.2 kk)
      (fun x => if x = kk then m + 1 else rank x) (m + 1) := by
  obtain ⟨hp1, hp2⟩ := countPairs_mem (sort_keys_head_mem hhead)
  obtain ⟨hlckk, hrckk, hkkblk, hkkff⟩ := inv.ek_free kk (List.mem_cons_self _ _)
  have hkkrest : kk ∉ rest := (List.nodup_cons.mp inv.ek_nodup).1
  have hrest_free : ∀ k ∈ rest, lc k = none ∧ rc k = none ∧ k ∉ blk ∧ k ≠ 0xff :=
    fun k hk => inv.ek_free k (List.mem_cons_of_mem _ hk)
  refine ⟨?_, ?_, ?_, ?_, ?_, ?_, ?_, ?_⟩
  · -- bound
    intro k
    by_cases hk : k = kk
    · simp [hk]
    · simp only [if_neg hk]
      exact Nat.le_succ_of_le (inv.bound k)
  · -- budget
    have := inv.budget
    simp only [List.length_cons] at this
    omega
  · -- pair_child
    intro k hsome
    by_cases hk : k = kk
    · subst hk
      refine ⟨p.1, p.2, by simp [updFn], by simp [updFn], ?_, ?_, ?_⟩
      · intro hpk; exact hkkblk (hpk ▸ hp1)
      · have h1 : p.1 ≠ k := fun hpk => hkkblk (hpk ▸ hp1)
        simp only [if_neg h1, if_pos rfl]
        exact Nat.lt_succ_of_le (inv.bound p.1)
      · have h2 : p.2 ≠ k := fun hpk => hkkblk (hpk ▸ hp2)
        simp only [if_neg h2, if_pos rfl]
        exact Nat.lt_succ_of_le (inv.bound p.2)
    · have hrck : rc k = (updFn rc kk p.2) k := by simp [updFn, hk]
      obtain ⟨a, r, hla, hrr, hak, h1, h2⟩ := inv.pair_child k (by rw [hrck]; exact hsome)
      have hnc := inv.ek_not_child kk (List.mem_cons_self _ _) k
        (by simp [hrr])
      have hakk : a ≠ kk := fun h => hnc.1 (h ▸ hla)
      have hrkk : r ≠ kk := fun h => hnc.2 (h ▸ hrr)
      refine ⟨a, r, by simp [updFn, hk, hla], by simp [updFn, hk, hrr], hak, ?_, ?_⟩
      · simp only [if_neg hakk, if_neg hk]; exact h1
      · simp only [if_neg hrkk, if_neg hk]; exact h2
  · -- lit
    intro k hnone
    by_cases hk : k = kk
    · subst hk; simp [updFn] at hnone
    · simp only [updFn, if_neg hk] at hnone ⊢
      exact inv.lit k hnone
  · -- ek_free
    intro k hk
    have hkkk : k ≠ kk := fun h => hkkrest (h ▸ hk)
    obtain ⟨h1, h2, h3, h4⟩ := hrest_free k hk
    refine ⟨by simp [updFn, hkkk, h1], by simp [updFn, hkkk, h2], ?_, h4⟩
    intro hmem
    rcases replacePair_mem hmem with h' | h'
    · exact h3 h'
    · exact hkkk h'
  · -- ek_not_child
    intro e he j hsome
    have heek : e ∈ kk :: rest := List.mem_cons_of_mem _ he
    have heblk : e ∉ blk := (inv.ek_free e heek).2.2.1
    by_cases hj : j = kk
    · subst hj
      constructor
      · intro h
        have hpe : p.1 = e := by simpa [updFn] using h
        exact heblk (hpe ▸ hp1)
      · intro h
        have hpe : p.2 = e := by simpa [updFn] using h
        exact heblk (hpe ▸ hp2)
    · have hrcj : (updFn rc kk p.2) j = rc j := by simp [updFn, hj]
      have := inv.ek_not_child e heek j (by rw [← hrcj]; exact hsome)
      constructor
      · simpa [updFn, hj] using this.1
      · simpa [updFn, hj] using this.2
  · exact (List.nodup_cons.mp inv.ek_nodup).2
  · -- ff_none
    have : (0xff : Nat) ≠ kk := fun h => hkkff h.symm
    simp [updFn, this, inv.ff_none]

theorem pairLoop_inv (so : Nat) :
    ∀ (ek : List Nat) (lc rc : Nat → Option Nat) (blk : List Nat)
      (rank : Nat → Nat) (m : Nat), PairInv lc rc ek blk rank m →
      ∀ st, pairLoop so lc rc ek blk = some st →
      ∃ rank' m', m' ≤ 255 ∧ PairInv st.1 st.2.1 st.2.2.1 st.2.2.2 rank' m' := by
  intro ek
  induction ek with
  | nil =>
    intro lc rc blk rank m inv st hloop
    rw [pairLoop] at hloop
    cases hhead : (sort_keys (countPairs blk) so).head? with
    | none => rw [hhead] at hloop; simp at hloop
    | some pc =>
      obtain ⟨p, c⟩ := pc
      rw [hhead] at hloop
      simp only [] at hloop
      by_cases hc : 5 ≤ c
      · rw [if_pos hc] at hloop
        simp only [Option.some.injEq] at hloop
        subst hloop
        exact ⟨rank, m, by have := inv.budget; simpa using this, inv⟩
      · rw [if_neg hc] at hloop
        simp only [Option.some.injEq] at hloop
        subst hloop
        exact ⟨rank, m, by have := inv.budget; simpa using this, inv⟩
  | cons kk rest ih =>
    intro lc rc blk rank m inv st hloop
    rw [pairLoop] at hloop
    cases hhead : (sort_keys (countPairs blk) so).head? with
    | none => rw [hhead] at hloop; simp at hloop
    | some pc =>
      obtain ⟨p, c⟩ := pc
      rw [hhead] at hloop
      simp only [] at hloop
      by_cases hc : 5 ≤ c
      · rw [if_pos hc] at hloop
        exact ih _ _ _ _ _ (inv.step hhead) st hloop
      · rw [if_neg hc] at hloop
        simp only [Option.some.injEq] at hloop
        subst hloop
        have := inv.budget
        simp only [List.length_cons] at this
        exact ⟨rank, m, by omega, inv⟩

theorem resolveKey_isSome_of_rank (lc rc : Nat → Option Nat) (rank : Nat → Nat)
    (hpair : ∀ k, (rc k).isSome = true →
      ∃ a r, lc k = some a ∧ rc k = some r ∧ a ≠ k ∧ rank a < rank k ∧ rank r < rank k)
    (hlit : ∀ k, rc k = none → lc k = none ∨ lc k = some k) :
    ∀ fuel k, rank k < fuel → (resolveKey lc rc fuel k).isSome = true := by
  intro fuel
  induction fuel with
  | zero => intro k hk; omega
  | succ f ih =>
    intro k hk
    rw [resolveKey]
    cases hrc : rc k with
    | none =>
      rcases hlit k hrc with h | h
      · simp [h]
      · simp [h]
    | some r =>
      obtain ⟨a, r', hla, hrr, hak, h1, h2⟩ := hpair k (by simp [hrc])
      rw [hrc] at hrr
      have hr : r = r' := by simpa using hrr
      subst hr
      rw [hla]
      simp only [Option.getD_some]
      rw [if_neg hak]
      have ha := ih a (by omega)
      have hrr2 := ih r (by omega)
      obtain ⟨l1, hl1⟩ := Option.isSome_iff_exists.mp ha
      obtain ⟨l2, hl2⟩ := Option.isSome_iff_exists.mp hrr2
      rw [hl1, hl2]
      rfl

/-- Claim C5: a dictionary built by the compressor's pair-assignment loop
is acyclic — there is a rank function strictly decreasing from every
assigned pair key to each of its children — and recursive resolution of
every key through it terminates within recursion depth 256
(`resolveKey` with fuel `0x100` succeeds for every key). -/
theorem c5_dictionary_termination (sort_order : Nat) (blk : List Nat)
    (lc rc : Nat → Option Nat) (ekOut blkOut : List Nat)
    (h : pairDicts sort_order blk = some (lc, rc, ekOut, blkOut)) :
    (∃ rank : Nat → Nat, ∀ k a r, lc k = some a → rc k = some r →
        a ≠ k ∧ rank a < rank k ∧ rank r < rank k) ∧
    (∀ k, (resolveKey lc rc 0x100 k).isSome = true) := by
  have h' : pairLoop sort_order (leftchInit blk) (fun _ => none)
      (emptyKeysDesc blk) blk = some (lc, rc, ekOut, blkOut) := by
    by_cases hek : emptyKeysDesc blk = []
    · simp [pairDicts, hek] at h
    · simpa [pairDicts, hek] using h
  obtain ⟨rank, m, hm, inv0⟩ :=
    pairLoop_inv sort_order _ _ _ _ _ _ (PairInv.init blk) _ h'
  have inv : PairInv lc rc ekOut blkOut rank m := inv0
  · 
    constructor
    · refine ⟨rank, ?_⟩
      intro k a r hla hrr
      obtain ⟨a', r', hla', hrr', hak, h1, h2⟩ := inv.pair_child k (by simp [hrr])
      rw [hla] at hla'
      rw [hrr] at hrr'
      have ha : a' = a := by simpa using hla'.symm
      have hr : r' = r := by simpa using hrr'.symm
      subst ha; subst hr
      exact ⟨hak, h1, h2⟩
    · intro k
      refine resolveKey_isSome_of_rank lc rc rank inv.pair_child inv.lit 0x100 k ?_
      have := inv.bound k
      omega

/-- Witness for C5 at a concrete block: six `0x41` bytes, for which one
pair is assigned. -/
theorem c5_witness :
    ∃ lc rc ekOut blkOut,
      pairDicts 0 (List.replicate 6 0x41) = some (lc, rc, ekOut, blkOut) ∧
      ((∃ rank : Nat → Nat, ∀ k a r, lc k = some a → rc k = some r →
          a ≠ k ∧ rank a < rank k ∧ rank r < rank k) ∧
       (∀ k, (resolveKey lc rc 0x100 k).isSome = true)) := by
  cases h : pairDicts 0 (List.replicate 6 0x41) with
  | none =>
    have hs : (pairDicts 0 (List.replicate 6 0x41)).isSome = true := by decide
    rw [h] at hs
    simp at hs
  | some st =>
    obtain ⟨lc, rc, eo, bo⟩ := st
    refine ⟨lc, rc, eo, bo, ?_, ?_⟩
    · exact rfl
    · exact c5_dictionary_termination 0 _ lc rc eo bo h

/-- Claim C10: key `0xff` is never assigned a byte pair by the compressor.
The free-slot list excludes `0xff` from the start (line 592), the final
right-character dictionary still maps `0xff` to `''`, and hence at most
255 of the 256 dictionary slots hold pairs. -/
theorem c10_key_ff_never_pair (sort_order : Nat) (blk : List Nat)
    (lc rc : Nat → Option Nat) (ekOut blkOut : List Nat)
    (h : pairDicts sort_order blk = some (lc, rc, ekOut, blkOut)) :
    0xff ∉ emptyKeysDesc blk ∧ rc 0xff = none ∧
      ((Finset.range 0x100).filter (fun k => (rc k).isSome)).card ≤ 255 := by
  have h' : pairLoop sort_order (leftchInit blk) (fun _ => none)
      (emptyKeysDesc blk) blk = some (lc, rc, ekOut, blkOut) := by
    by_cases hek : emptyKeysDesc blk = []
    · simp [pairDicts, hek] at h
    · simpa [pairDicts, hek] using h
  obtain ⟨rank, m, hm, inv0⟩ :=
    pairLoop_inv sort_order _ _ _ _ _ _ (PairInv.init blk) _ h'
  have inv : PairInv lc rc ekOut blkOut rank m := inv0
  refine ⟨?_, inv.ff_none, ?_⟩
  · intro hmem
    simp [emptyKeysDesc] at hmem
  · have hsub : (Finset.range 0x100).filter (fun k => (rc k).isSome) ⊆
        (Finset.range 0x100).erase 0xff := by
      intro k hk
      simp only [Finset.mem_filter, Finset.mem_range] at hk
      refine Finset.mem_erase.mpr ⟨?_, Finset.mem_range.mpr hk.1⟩
      intro hkff
      rw [hkff, inv.ff_none] at hk
      simp at hk
    have := Finset.card_le_card hsub
    rw [Finset.card_erase_of_mem (Finset.mem_range.mpr (by omega))] at this
    simpa using this

/-- Witness for C10 at a concrete block: seven `0x42` bytes. -/
theorem c10_witness :
    ∃ lc rc ekOut blkOut,
      pairDicts 1 (List.replicate 7 0x42) = some (lc, rc, ekOut, blkOut) ∧
      (0xff ∉ emptyKeysDesc (List.replicate 7 0x42) ∧ rc 0xff = none ∧
        ((Finset.range 0x100).filter (fun k => (rc k).isSome)).card ≤ 255) := by
  cases h : pairDicts 1 (List.replicate 7 0x42) with
  | none =>
    have hs : (pairDicts 1 (List.replicate 7 0x42)).isSome = true := by decide
    rw [h] at hs
    simp at hs
  | some st =>
    obtain ⟨lc, rc, eo, bo⟩ := st
    refine ⟨lc, rc, eo, bo, ?_, ?_⟩
    · exact rfl
    · exact c10_key_ff_never_pair 1 _ lc rc eo bo h

/-! ### Claim C6: encoder pair-selection discipline -/

theorem sortKeysLe_total (so : Nat) :
    ∀ a b, sortKeysLe so a b = true ∨ sortKeysLe so b a = true := by
  intro a b
  unfold sortKeysLe
  split_ifs <;> simp only [decide_eq_true_eq] <;> omega

theorem sortKeysLe_trans (so : Nat) :
    ∀ a b c, sortKeysLe so a b = true → sortKeysLe so b c = true →
      sortKeysLe so a c = true := by
  intro a b c hab hbc
  unfold sortKeysLe at hab hbc ⊢
  split_ifs at hab hbc ⊢ <;> simp only [decide_eq_true_eq] at hab hbc ⊢ <;> omega

theorem sortKeysLe_count_le {so : Nat} {a b : (Nat × Nat) × Nat}
    (h : sortKeysLe so a b = true) : b.2 ≤ a.2 := by
  unfold sortKeysLe at h
  split_ifs at h <;> simp only [decide_eq_true_eq] at h <;> omega

theorem emptyKeysDesc_sorted (blk : List Nat) :
    (emptyKeysDesc blk).Pairwise (fun a b : Nat => b ≤ a) := by
  unfold emptyKeysDesc
  rw [List.pairwise_reverse]
  have := List.pairwise_lt_range 0x100
  exact ((this.sublist (List.filter_sublist _)).imp (fun h => Nat.le_of_lt h))

/-- Claim C6: the pair-assignment loop selects a most-frequent pair (the
head of the stably sorted count list), breaks count ties by the selected
ordering (count only for order 0; by count then first byte
ascending/descending then second byte ascending/descending for orders
1-4), proceeds exactly when the top count is at least 5 and a free key
remains — assigning the pair to the largest remaining free key, replacing
all of its occurrences in the block by that key and recounting — and
stops when the top count is below 5 or no free key remains. -/
theorem c6_encoder_selection (so : Nat) (lc rc : Nat → Option Nat)
    (ek blk : List Nat) :
    (∀ p c, (sort_keys (countPairs blk) so).head? = some (p, c) →
      ((p, c) ∈ countPairs blk) ∧
      (∀ q c', (q, c') ∈ countPairs blk → c' ≤ c) ∧
      (so = 1 → ∀ q c', (q, c') ∈ countPairs blk → c' = c →
        p.1 < q.1 ∨ (p.1 = q.1 ∧ p.2 ≤ q.2)) ∧
      (so = 2 → ∀ q c', (q, c') ∈ countPairs blk → c' = c →
        q.1 < p.1 ∨ (p.1 = q.1 ∧ p.2 ≤ q.2)) ∧
      (so = 3 → ∀ q c', (q, c') ∈ countPairs blk → c' = c →
        p.1 < q.1 ∨ (p.1 = q.1 ∧ q.2 ≤ p.2)) ∧
      (so = 4 → ∀ q c', (q, c') ∈ countPairs blk → c' = c →
        q.1 < p.1 ∨ (p.1 = q.1 ∧ q.2 ≤ p.2)) ∧
      (∀ kk rest, ek = kk :: rest → 5 ≤ c →
        pairLoop so lc rc ek blk =
          pairLoop so (updFn lc kk p.1) (updFn rc kk p.2) rest
            (replacePair blk p.1 p.2 kk) ∧
        (ek.Pairwise (fun a b : Nat => b ≤ a) → ∀ j ∈ ek, j ≤ kk)) ∧
      (c < 5 → pairLoop so lc rc ek blk = some (lc, rc, ek, blk)) ∧
      (ek = [] → pairLoop so lc rc ek blk = some (lc, rc, ek, blk))) ∧
    ((sort_keys (countPairs blk) so).head? = none →
      pairLoop so lc rc ek blk = none) ∧
    (emptyKeysDesc blk).Pairwise (fun a b : Nat => b ≤ a) := by
  refine ⟨?_, ?_, emptyKeysDesc_sorted blk⟩
  · intro p c hhead
    have hmin := pySorted_head_min (sortKeysLe so) (sortKeysLe_total so)
      (sortKeysLe_trans so) (countPairs blk) (p, c) hhead
    refine ⟨sort_keys_head_mem hhead, ?_, ?_, ?_, ?_, ?_, ?_, ?_, ?_⟩
    · intro q c' hq
      exact sortKeysLe_count_le (hmin (q, c') hq)
    · rintro rfl q c' hq rfl
      have := hmin (q, c') hq
      simp [sortKeysLe] at this
      omega
    · rintro rfl q c' hq rfl
      have := hmin (q, c') hq
      simp [sortKeysLe] at this
      omega
    · rintro rfl q c' hq rfl
      have := hmin (q, c') hq
      simp [sortKeysLe] at this
      omega
    · rintro rfl q c' hq rfl
      have := hmin (q, c') hq
      simp [sortKeysLe] at this
      omega
    · rintro kk rest rfl hc
      constructor
      · rw [pairLoop, hhead]
        simp only []
        rw [if_pos hc]
      · intro hsort j hj
        rcases List.mem_cons.mp hj with rfl | hj
        · exact Nat.le_refl j
        · exact (List.pairwise_cons.mp hsort).1 j hj
    · intro hc
      rw [pairLoop, hhead]
      simp only []
      rw [if_neg (by omega)]
    · rintro rfl
      rw [pairLoop, hhead]
      simp only []
      by_cases hc : 5 ≤ c
      · rw [if_pos hc]
      · rw [if_neg hc]
  · intro hhead
    rw [pairLoop, hhead]

/-- Witness for C6 on the concrete block `AAAAAA\x07`: the selected pair is
`(0x41, 0x41)` with count 5, it is maximal, and the loop assigns it to the
largest free key `0xfe` and replaces its occurrences. -/
theorem c6_witness :
    ((0x41, 0x41), 5) ∈ countPairs [0x41, 0x41, 0x41, 0x41, 0x41, 0x41, 7] ∧
    (∀ q c', (q, c') ∈ countPairs [0x41, 0x41, 0x41, 0x41, 0x41, 0x41, 7] → c' ≤ 5) ∧
    pairLoop 0 (leftchInit [0x41, 0x41, 0x41, 0x41, 0x41, 0x41, 7]) (fun _ => none)
        (emptyKeysDesc [0x41, 0x41, 0x41, 0x41, 0x41, 0x41, 7])
        [0x41, 0x41, 0x41, 0x41, 0x41, 0x41, 7] =
      pairLoop 0
        (updFn (leftchInit [0x41, 0x41, 0x41, 0x41, 0x41, 0x41, 7]) 0xfe 0x41)
        (updFn (fun _ => none) 0xfe 0x41)
        (emptyKeysDesc [0x41, 0x41, 0x41, 0x41, 0x41, 0x41, 7]).tail
        (replacePair [0x41, 0x41, 0x41, 0x41, 0x41, 0x41, 7] 0x41 0x41 0xfe) := by
  have h := (c6_encoder_selection 0
    (leftchInit [0x41, 0x41, 0x41, 0x41, 0x41, 0x41, 7]) (fun _ => none)
    (emptyKeysDesc [0x41, 0x41, 0x41, 0x41, 0x41, 0x41, 7])
    [0x41, 0x41, 0x41, 0x41, 0x41, 0x41, 7]).1 (0x41, 0x41) 5 (by decide)
  refine ⟨h.1, h.2.1, ?_⟩
  have hstep := (h.2.2.2.2.2.2.1 0xfe
    (emptyKeysDesc [0x41, 0x41, 0x41, 0x41, 0x41, 0x41, 7]).tail
    (by decide) (by decide)).1
  exact hstep

/-! ### BPE decompressor (`_decompress`, lines 195-383)

The compressed file is a byte list `d` with an explicit read position `p`.
`read(1)` past the end of file returns `b''` in Python, which
`int.from_bytes` turns into 0 while the file position stays put; `readByte`
mirrors that. -/

def readByte (d : List Nat) (p : Nat) : Nat × Nat :=
  if p < d.length then (d.getD p 0, p + 1) else (0, p)

/-- `int.from_bytes(bs, 'little')`. -/
def leNum : List Nat → Nat
  | [] => 0
  | b :: rest => b + 0x100 * leNum rest

/-- `read(4)` for the block-size word: the bytes actually obtained
(shorter near end of file, empty at end of file) and the new position. -/
def readWord4 (d : List Nat) (p : Nat) : List Nat × Nat :=
  let bs := (d.drop p).take 4
  (bs, p + bs.length)

/-- The entry-fill loop of the decompressor's dictionary builder
(lines 319-328): read `cnt` entries starting at `key`; each entry is one
byte stored into `dict_leftch[key]` and, exactly when that byte differs
from `key`, a second byte stored into `dict_rightch[key]`; the cursor
advances by one per entry. -/
def fillEntries (d : List Nat) : Nat → (Nat → Nat) → (Nat → Option Nat) → Nat → Nat →
    (Nat → Nat) × (Nat → Option Nat) × Nat × Nat
  | 0, lc, rc, key, p => (lc, rc, key, p)
  | cnt + 1, lc, rc, key, p =>
    let b := (readByte d p).1
    let p1 := (readByte d p).2
    let lc' := fun x => if x = key then b else lc x
    if b ≠ key then
      let r := (readByte d p1).1
      let p2 := (readByte d p1).2
      fillEntries d cnt lc' (fun x => if x = key then some r else rc x) (key + 1) p2
    else
      fillEntries d cnt lc' rc (key + 1) p1

theorem fillEntries_cursor (d : List Nat) :
    ∀ cnt lc rc key p, (fillEntries d cnt lc rc key p).2.2.1 = key + cnt := by
  intro cnt
  induction cnt with
  | zero => intro lc rc key p; rfl
  | succ n ih =>
    intro lc rc key p
    rw [fillEntries]
    split
    · rw [ih]; omega
    · rw [ih]; omega

theorem fillEntries_untouched (d : List Nat) :
    ∀ cnt lc rc key p x, x < key ∨ key + cnt ≤ x →
      (fillEntries d cnt lc rc key p).1 x = lc x ∧
      (fillEntries d cnt lc rc key p).2.1 x = rc x := by
  intro cnt
  induction cnt with
  | zero => intro lc rc key p x _; exact ⟨rfl, rfl⟩
  | succ n ih =>
    intro lc rc key p x hx
    have hxk : x ≠ key := by omega
    rw [fillEntries]
    split
    · refine ⟨?_, ?_⟩
      · rw [(ih _ _ (key + 1) _ x (by omega)).1]
        simp [hxk]
      · rw [(ih _ _ (key + 1) _ x (by omega)).2]
        simp [hxk]
    · refine ⟨?_, ?_⟩
      · rw [(ih _ _ (key + 1) _ x (by omega)).1]
        simp [hxk]
      · rw [(ih _ _ (key + 1) _ x (by omega)).2]

/-- One iteration of the dictionary-build loop of `_decompress`
(lines 301-328): read a control byte; a control byte at least `0x80`
moves the cursor to `key - 0x7f + control` and leaves a single entry to
read, a smaller control byte leaves `control + 1` entries; the entries
are then read if the cursor is still below 0x100. -/
def buildDictStep (d : List Nat) (lc : Nat → Nat) (rc : Nat → Option Nat)
    (key p : Nat) : (Nat → Nat) × (Nat → Option Nat) × Nat × Nat :=
  let c := (readByte d p).1
  let p1 := (readByte d p).2
  let key1 := if 0x80 ≤ c then key + c - 0x7f else key
  let cnt := if 0x80 ≤ c then 0 else c
  if key1 < 0x100 then fillEntries d (cnt + 1) lc rc key1 p1
  else (lc, rc, key1, p1)

theorem buildDictStep_cursor_gt (d : List Nat) (lc : Nat → Nat)
    (rc : Nat → Option Nat) (key p : Nat) (hk : key < 0x100) :
    key < (buildDictStep d lc rc key p).2.2.1 := by
  unfold buildDictStep
  by_cases hc : 0x80 ≤ (readByte d p).1
  · simp only [if_pos hc]
    split
    · rw [fillEntries_cursor]; omega
    · simp only []; omega
  · simp only [if_neg hc]
    rw [if_pos hk, fillEntries_cursor]
    omega

/-- The dictionary-build loop (`while key < 0x100`, line 302), with an
explicit iteration bound.  The cursor strictly increases every iteration
(see `buildDictStep_cursor_gt`), so `0x100` iterations always suffice;
`buildDict` below starts with that bound, making the bound semantically
invisible (`buildDictLoop_fuel_irrelevant`). -/
def buildDictLoop (d : List Nat) : Nat → (Nat → Nat) → (Nat → Option Nat) → Nat → Nat →
    (Nat → Nat) × (Nat → Option Nat) × Nat
  | 0, lc, rc, _, p => (lc, rc, p)
  | fuel + 1, lc, rc, key, p =>
    if key < 0x100 then
      let st := buildDictStep d lc rc key p
      buildDictLoop d fuel st.1 st.2.1 st.2.2.1 st.2.2.2
    else (lc, rc, p)

theorem buildDictLoop_fuel_irrelevant (d : List Nat) :
    ∀ f1 f2 lc rc key p, 0x100 ≤ key + f1 → 0x100 ≤ key + f2 →
      buildDictLoop d f1 lc rc key p = buildDictLoop d f2 lc rc key p := by
  intro f1
  induction f1 with
  | zero =>
    intro f2 lc rc key p h1 h2
    cases f2 with
    | zero => rfl
    | succ g =>
      rw [buildDictLoop, buildDictLoop, if_neg (by omega)]
  | succ f ih =>
    intro f2 lc rc key p h1 h2
    cases f2 with
    | zero =>
      rw [buildDictLoop, buildDictLoop, if_neg (by omega)]
    | succ g =>
      rw [buildDictLoop, buildDictLoop]
      split
      · have hstep := buildDictStep_cursor_gt d lc rc key p (by assumption)
        exact ih g _ _ _ _ (by omega) (by omega)
      · rfl

/-- The complete per-block dictionary build of `_decompress`
(lines 294-328): `dict_leftch` starts as the identity on every key,
`dict_rightch` as all-`''`, and the cursor at 0. -/
def buildDict (d : List Nat) (p : Nat) : (Nat → Nat) × (Nat → Option Nat) × Nat :=
  buildDictLoop d 0x100 (fun x => x) (fun _ => none) 0 p

/-- Claim C7 (amended): one iteration of the decompressor's dictionary
builder.  A control byte `c ≥ 0x80` advances the fill cursor by
`c - 0x7f` and then fills exactly ONE entry at the new cursor when it is
still below 0x100 (and none otherwise); a control byte `c < 0x80` fills
`c + 1` sequential entries from the current cursor; every filled entry is
one left-child byte followed by a right-child byte exactly when the
left-child byte differs from the entry's key; keys outside the filled
window keep their previous value. -/
theorem c7_dict_build_step (d : List Nat) (lc : Nat → Nat) (rc : Nat → Option Nat)
    (key p : Nat) :
    (0x80 ≤ (readByte d p).1 →
      buildDictStep d lc rc key p =
        if key + (readByte d p).1 - 0x7f < 0x100 then
          fillEntries d 1 lc rc (key + (readByte d p).1 - 0x7f) (readByte d p).2
        else (lc, rc, key + (readByte d p).1 - 0x7f, (readByte d p).2)) ∧
    ((readByte d p).1 < 0x80 →
      buildDictStep d lc rc key p =
        if key < 0x100 then
          fillEntries d ((readByte d p).1 + 1) lc rc key (readByte d p).2
        else (lc, rc, key, (readByte d p).2)) ∧
    (∀ cnt lc' rc' key' p', (fillEntries d cnt lc' rc' key' p').2.2.1 = key' + cnt) ∧
    (∀ cnt lc' rc' key' p' x, x < key' ∨ key' + cnt ≤ x →
      (fillEntries d cnt lc' rc' key' p').1 x = lc' x ∧
      (fillEntries d cnt lc' rc' key' p').2.1 x = rc' x) ∧
    (∀ lc' rc' key' p', (readByte d p').1 ≠ key' →
      fillEntries d 1 lc' rc' key' p' =
        ((fun x => if x = key' then (readByte d p').1 else lc' x),
         (fun x => if x = key' then some (readByte d (readByte d p').2).1 else rc' x),
         key' + 1, (readByte d (readByte d p').2).2)) ∧
    (∀ lc' rc' key' p', (readByte d p').1 = key' →
      fillEntries d 1 lc' rc' key' p' =
        ((fun x => if x = key' then (readByte d p').1 else lc' x), rc',
         key' + 1, (readByte d p').2)) := by
  refine ⟨?_, ?_, fillEntries_cursor d, fillEntries_untouched d, ?_, ?_⟩
  · intro hc
    simp only [buildDictStep, if_pos hc]
  · intro hc
    have hc' : ¬ 0x80 ≤ (readByte d p).1 := by omega
    simp only [buildDictStep, if_neg hc']
  · intro lc' rc' key' p' h
    rw [fillEntries, if_pos h]
    rfl
  · intro lc' rc' key' p' h
    rw [fillEntries, if_neg (by simpa using h)]
    rfl

/-- Counterexample to C7 as stated: the claim says a control byte
`c ≥ 0x80` advances the cursor "without filling any entry", which would
leave `dict_leftch` the identity after the jump.  On the instruction
stream `81 05 06` from cursor 0, the code jumps to key 2 and then fills
the entry `(5, 6)` there: `dict_leftch[2] = 5 ≠ 2`, and the cursor ends
at 3, one past the jump target. -/
theorem c7_counterexample_jump_fills_entry :
    (buildDictStep [0x81, 5, 6] (fun x => x) (fun _ => none) 0 0).1 2 = 5 ∧
    ¬ ((buildDictStep [0x81, 5, 6] (fun x => x) (fun _ => none) 0 0).1 2 = 2) ∧
    (buildDictStep [0x81, 5, 6] (fun x => x) (fun _ => none) 0 0).2.1 2 = some 6 ∧
    (buildDictStep [0x81, 5, 6] (fun x => x) (fun _ => none) 0 0).2.2.1 = 3 := by
  refine ⟨rfl, by decide, rfl, rfl⟩

/-- Witness for C7 on the stream `81 05 06`: a jump control byte `0x81`
from cursor 0 lands on key 2 and fills one entry there. -/
theorem c7_witness :
    buildDictStep [0x81, 5, 6] (fun x => x) (fun _ => none) 0 0 =
      fillEntries [0x81, 5, 6] 1 (fun x => x) (fun _ => none) 2 1 ∧
    (fillEntries [0x81, 5, 6] 1 (fun x => x) (fun _ => none) 2 1).2.2.1 = 3 := by
  have h := c7_dict_build_step [0x81, 5, 6] (fun x => x) (fun _ => none) 0 0
  constructor
  · have := h.1 (by decide)
    rw [if_pos (by decide)] at this
    exact this
  · exact h.2.2.1 1 _ _ 2 1

/-- Resolution of one compressed byte through the decoder's dictionaries,
as the unresolved-byte machine of `_decompress` does (lines 332-349): a
byte `b` with `dict_leftch[b] == b` is emitted as a literal; otherwise the
left child is resolved first, then the right child.  The machine has no
step bound and diverges on a cyclic dictionary (and crashes when it hits
an unset `''` right child); `fuel` bounds the depth, `none` covering both
failure modes. -/
def resolveByte (lc : Nat → Nat) (rc : Nat → Option Nat) : Nat → Nat → Option (List Nat)
  | 0, _ => none
  | fuel + 1, b =>
    if lc b = b then some [b]
    else
      match rc b with
      | none => none
      | some r =>
        match resolveByte lc rc fuel (lc b), resolveByte lc rc fuel r with
        | some l1, some l2 => some (l1 ++ l2)
        | _, _ => none

theorem resolveByte_ne_nil (lc : Nat → Nat) (rc : Nat → Option Nat) :
    ∀ fuel b l, resolveByte lc rc fuel b = some l → l ≠ [] := by
  intro fuel
  induction fuel with
  | zero => intro b l h; simp [resolveByte] at h
  | succ f ih =>
    intro b l h
    rw [resolveByte] at h
    split at h
    · cases h; simp
    · cases hrc : rc b with
      | none => simp only [hrc] at h; exact Option.noConfusion h
      | some r =>
        simp only [hrc] at h
        cases h1 : resolveByte lc rc f (lc b) with
        | none => simp only [h1] at h; exact Option.noConfusion h
        | some l1 =>
          simp only [h1] at h
          cases h2 : resolveByte lc rc f r with
          | none => simp only [h2] at h; exact Option.noConfusion h
          | some l2 =>
            simp only [h2, Option.some.injEq] at h
            subst h
            have := ih (lc b) l1 h1
            simp [this]

/-- The block-decode loop of `_decompress` (lines 330-349): while the
declared decompressed count is positive, read one compressed byte and
fully resolve it, decrementing the count per emitted literal (the count
may overshoot below zero, ending the loop just the same); resolved bytes
are appended to the output only when `block >= start_block` (`keep`).
Returns the output and the final read position. -/
def decodeBlock (d : List Nat) (lc : Nat → Nat) (rc : Nat → Option Nat) (keep : Bool) :
    Nat → Nat → List Nat → Option (List Nat × Nat)
  | remaining, p, acc =>
    if remaining = 0 then some (acc, p)
    else
      match h : resolveByte lc rc 0x101 (readByte d p).1 with
      | none => none
      | some l =>
        decodeBlock d lc rc keep (remaining - l.length) (readByte d p).2
          (if keep then acc ++ l else acc)
  termination_by remaining p acc => remaining
  decreasing_by
    have hne := resolveByte_ne_nil lc rc 0x101 (readByte d p).1 l h
    have hpos := List.length_pos.mpr hne
    omega

inductive DecompErr where
  | invalidBlockSize : DecompErr
  | decodeStuck : DecompErr
  | outOfFuel : DecompErr
deriving DecidableEq

/-- The block loop of `_decompress` (lines 265-352).  Per block: read the
4-byte size word (`b''` or four zero bytes terminate, line 272); a value
above 0x800 aborts the whole file with no output written
(`.error .invalidBlockSize`, the early `return` of line 279); once the
counter passes a window `[start_block, end_block)` the loop breaks; sizes
inside the window are recorded; the block dictionary is built, the block
decoded (bytes kept only from `start_block` on), and the position
word-aligned.  `.ok` carries the decompressed bytes, recorded size list
and final block counter — exactly the data the source then writes to the
output file and metadata sidecar (lines 354-371); on `.error` nothing is
written and the read-only source is untouched.  `.error .decodeStuck`
models a decode that diverges or crashes in Python;
`.error .outOfFuel` is this embedding's iteration bound, unreachable when
`fuel` exceeds the stream length since every iteration consumes at least
one stream byte. -/
def decompressLoop (d : List Nat) (start_block end_block : Nat) :
    Nat → Nat → Nat → List Nat → List Nat →
    Except DecompErr (List Nat × List Nat × Nat)
  | 0, _, _, _, _ => .error .outOfFuel
  | fuel + 1, p, block, out, sizes =>
    if (readWord4 d p).1 = [] ∨ (readWord4 d p).1 = [0, 0, 0, 0] then
      .ok (out, sizes, block)
    else if 0x800 < leNum (readWord4 d p).1 then .error .invalidBlockSize
    else if end_block ≤ block ∧ start_block ≤ block then .ok (out, sizes, block)
    else
      match decodeBlock d (buildDict d (readWord4 d p).2).1
          (buildDict d (readWord4 d p).2).2.1 (decide (start_block ≤ block))
          (leNum (readWord4 d p).1) (buildDict d (readWord4 d p).2).2.2 out with
      | none => .error .decodeStuck
      | some pr =>
        decompressLoop d start_block end_block fuel
          (if pr.2 % 4 ≠ 0 then pr.2 + (4 - pr.2 % 4) else pr.2) (block + 1) pr.1
          (if start_block ≤ block ∧ block < end_block then
            sizes ++ [leNum (readWord4 d p).1] else sizes)

/-- `_decompress` proper: skip the 8 header bytes (signature and total
size, line 253), fix up a non-increasing block window to 512
(lines 256-259), and run the block loop from position 8 with enough
fuel for the whole stream. -/
def decompressBPE (d : List Nat) (start_block end_block : Nat) :
    Except DecompErr (List Nat × List Nat × Nat) :=
  let eb := if end_block ≤ start_block then 512 else end_block
  decompressLoop d start_block eb (d.length + 1) 8 0 [] []

/-- The same traversal as `decompressLoop`, recording only whether a
block-size word above 0x800 is reached. -/
def scanInvalidSize (d : List Nat) (start_block end_block : Nat) :
    Nat → Nat → Nat → List Nat → List Nat → Bool
  | 0, _, _, _, _ => false
  | fuel + 1, p, block, out, sizes =>
    if (readWord4 d p).1 = [] ∨ (readWord4 d p).1 = [0, 0, 0, 0] then false
    else if 0x800 < leNum (readWord4 d p).1 then true
    else if end_block ≤ block ∧ start_block ≤ block then false
    else
      match decodeBlock d (buildDict d (readWord4 d p).2).1
          (buildDict d (readWord4 d p).2).2.1 (decide (start_block ≤ block))
          (leNum (readWord4 d p).1) (buildDict d (readWord4 d p).2).2.2 out with
      | none => false
      | some pr =>
        scanInvalidSize d start_block end_block fuel
          (if pr.2 % 4 ≠ 0 then pr.2 + (4 - pr.2 % 4) else pr.2) (block + 1) pr.1
          (if start_block ≤ block ∧ block < end_block then
            sizes ++ [leNum (readWord4 d p).1] else sizes)

/-- Claim C3: whenever the decompression traversal reaches a block whose
4-byte little-endian size word exceeds 0x800, the decompressor aborts
with the invalid-block-size error: the `.error` result carries no
decompressed output and no metadata, so no output file or sidecar is
written, and the source file — opened read-only — is unchanged. -/
theorem c3_invalid_blocksize_aborts (d : List Nat) (sb eb : Nat) :
    ∀ (fuel p block : Nat) (out sizes : List Nat),
      scanInvalidSize d sb eb fuel p block out sizes = true →
      decompressLoop d sb eb fuel p block out sizes =
        Except.error DecompErr.invalidBlockSize := by
  intro fuel
  induction fuel with
  | zero => intro p block out sizes h; simp [scanInvalidSize] at h
  | succ f ih =>
    intro p block out sizes h
    rw [scanInvalidSize] at h
    rw [decompressLoop]
    by_cases h1 : (readWord4 d p).1 = [] ∨ (readWord4 d p).1 = [0, 0, 0, 0]
    · rw [if_pos h1] at h; simp at h
    · rw [if_neg h1] at h
      rw [if_neg h1]
      by_cases h2 : 0x800 < leNum (readWord4 d p).1
      · rw [if_pos h2]
      · rw [if_neg h2] at h
        rw [if_neg h2]
        by_cases h3 : eb ≤ block ∧ sb ≤ block
        · rw [if_pos h3] at h; simp at h
        · rw [if_neg h3] at h
          rw [if_neg h3]
          cases hdec : decodeBlock d (buildDict d (readWord4 d p).2).1
              (buildDict d (readWord4 d p).2).2.1 (decide (sb ≤ block))
              (leNum (readWord4 d p).1) (buildDict d (readWord4 d p).2).2.2 out with
          | none => rw [hdec] at h; simp at h
          | some pr =>
            rw [hdec] at h
            exact ih _ _ _ _ h

/-- Witness for C3: a stream whose first block declares 0x801 decompressed
bytes (size word `01 08 00 00` after the 8 header bytes) is aborted with
the invalid-block-size error. -/
theorem c3_witness :
    scanInvalidSize [0, 0, 0, 0, 0x42, 0x50, 0x45, 0x1a, 0x01, 0x08, 0, 0]
        0 512 13 8 0 [] [] = true ∧
    decompressBPE [0, 0, 0, 0, 0x42, 0x50, 0x45, 0x1a, 0x01, 0x08, 0, 0] 0 512 =
      Except.error DecompErr.invalidBlockSize := by
  constructor
  · decide
  · exact c3_invalid_blocksize_aborts _ 0 512 13 8 0 [] [] (by decide)

/-! ### Attempt scheduler of `run_compression` (lines 929-1061, claim C2) -/

/-- Outcome of the retry loop of `run_compression`: `success` records the
attempt number, the sizes `_compress` reported (original end offset and
new end offset) and the host-file content left on disk; `failRestored`
records the attempt number at exhaustion and the restored host content. -/
inductive CompressOutcome (α : Type) where
  | success : Nat → Nat → Nat → α → CompressOutcome α
  | failRestored : Nat → α → CompressOutcome α
deriving DecidableEq

/-- The retry loop of `run_compression` under `mod_mode`/`is_subfile`
(lines 992-1056), over an abstract `_compress` oracle: `oracle a` is the
pair `(end_block_offset, new_end_offset)` reported by attempt `a`
together with the host content that attempt wrote (`_compress` rewrites
the host file each call, line 1001).  `small` is
`os.path.getsize(decompressed_file) <= 0x800`.  A larger-than-original
result (`return_vals[0] < return_vals[1]`) is retried after restoring
the pre-attempt copy `temp` while the budget allows — `attempts <
max_attempts` for large files, `attempts <= 5` for small ones
(lines 1015-1017) — and on exhaustion the host is restored from `temp`
and failure reported (lines 1022-1029); otherwise the attempt's result
stands. -/
def runCompressionLoop {α : Type} (small : Bool) (max_attempts : Nat)
    (oracle : Nat → Nat × Nat × α) (temp : α) (a : Nat) : CompressOutcome α :=
  if (oracle a).1 < (oracle a).2.1 then
    if (small = false ∧ a < max_attempts) ∨ (small = true ∧ a ≤ 5) then
      runCompressionLoop small max_attempts oracle temp (a + 1)
    else .failRestored a temp
  else .success a (oracle a).1 (oracle a).2.1 (oracle a).2.2
  termination_by (if small then 6 else max_attempts) + 1 - a
  decreasing_by
    rename_i hretry
    rcases hretry with ⟨hs, hlt⟩ | ⟨hs, hle⟩ <;> subst hs <;> simp <;> omega

/-- `run_compression` with `mod_mode` or `is_subfile` set starts at
attempt 1 (line 986). -/
def runCompressionMod {α : Type} (small : Bool) (max_attempts : Nat)
    (oracle : Nat → Nat × Nat × α) (temp : α) : CompressOutcome α :=
  runCompressionLoop small max_attempts oracle temp 1

theorem runCompressionLoop_spec {α : Type} (small : Bool) (maxA : Nat)
    (oracle : Nat → Nat × Nat × α) (temp : α) :
    ∀ a, 1 ≤ a → (small = true → a ≤ 6) →
      (∃ b o n host, runCompressionLoop small maxA oracle temp a =
          .success b o n host ∧ n ≤ o ∧ oracle b = (o, n, host)) ∨
      (∃ b, runCompressionLoop small maxA oracle temp a = .failRestored b temp ∧
        (small = true → b = 6) ∧ (small = false → maxA ≤ b)) := by
  intro a
  induction a using runCompressionLoop.induct small maxA oracle temp with
  | case1 a hover hretry ih =>
    intro h1 h6
    rw [runCompressionLoop, if_pos hover, if_pos hretry]
    refine ih (by omega) ?_
    intro hs
    subst hs
    rcases hretry with ⟨hs, _⟩ | ⟨_, hle⟩
    · exact absurd hs (by simp)
    · omega
  | case2 a hover hretry =>
    intro h1 h6
    rw [runCompressionLoop, if_pos hover, if_neg hretry]
    refine Or.inr ⟨a, rfl, ?_, ?_⟩
    · intro hs
      subst hs
      have hnotle : ¬ a ≤ 5 := fun hle => hretry (Or.inr ⟨rfl, hle⟩)
      have h6' := h6 rfl
      omega
    · intro hs
      subst hs
      have hnotlt : ¬ a < maxA := fun hlt => hretry (Or.inl ⟨rfl, hlt⟩)
      omega
  | case3 a hover =>
    intro h1 h6
    rw [runCompressionLoop, if_neg hover]
    exact Or.inl ⟨a, _, _, _, rfl, by omega, rfl⟩

/-- Counterexample to C2 as stated: the claim says that for decompressed
files of at most 0x800 bytes the attempt budget "is smaller than the
caller-supplied max_attempts used for larger files".  With
`max_attempts = 3` and an oracle that always reports an oversized result,
a small file is still retried through 6 attempts — a budget larger than
the caller-supplied `max_attempts`. -/
theorem c2_counterexample_small_budget :
    runCompressionMod true 3 (fun _ => (10, 20, (0 : Nat))) (99 : Nat) =
      CompressOutcome.failRestored 6 99 ∧ ¬ (6 < 3) := by
  constructor
  · simp [runCompressionMod, runCompressionLoop]
  · omega

/-- Claim C2 (amended): with `mod_mode` or `is_subfile` set, the retry
loop either ends in success with a reported new size no larger than the
original — the host left as that attempt wrote it — or exhausts its
budget and ends with the host restored from the pre-attempt copy `temp`;
an oversized result is never left in place.  The budget is
`max_attempts` attempts for decompressed files larger than 0x800 bytes
and a fixed 6 attempts for smaller ones, independent of the
caller-supplied `max_attempts`. -/
theorem c2_size_ceiling_convergence {α : Type} (small : Bool) (maxA : Nat)
    (oracle : Nat → Nat × Nat × α) (temp : α) :
    (∃ b o n host, runCompressionMod small maxA oracle temp =
        CompressOutcome.success b o n host ∧ n ≤ o ∧ oracle b = (o, n, host)) ∨
    (∃ b, runCompressionMod small maxA oracle temp =
        CompressOutcome.failRestored b temp ∧
      (small = true → b = 6) ∧ (small = false → maxA ≤ b)) :=
  runCompressionLoop_spec small maxA oracle temp 1 (by omega) (by omega)

/-- Witness for C2: a small file whose third attempt fits (7 ≤ 10) ends
in success at attempt 3 with the host that attempt wrote; the
always-oversized small-file run of `c2_counterexample_small_budget` ends
restored.  Derived by applying `c2_size_ceiling_convergence` at this
concrete oracle and discharging the other disjunct by evaluation. -/
theorem c2_witness :
    runCompressionMod true 100 (fun a => (10, if a = 3 then 7 else 20, a)) (0 : Nat) =
      CompressOutcome.success 3 10 7 3 := by
  rcases c2_size_ceiling_convergence true 100
      (fun a => (10, if a = 3 then 7 else 20, a)) (0 : Nat) with
    ⟨b, o, n, host, heq, hle, horacle⟩ | ⟨b, heq, hsmall, _⟩
  · have hval : runCompressionMod true 100 (fun a => (10, if a = 3 then 7 else 20, a))
        (0 : Nat) = CompressOutcome.success 3 10 7 3 := by
      simp [runCompressionMod, runCompressionLoop]
    exact hval
  · have hval : runCompressionMod true 100 (fun a => (10, if a = 3 then 7 else 20, a))
        (0 : Nat) = CompressOutcome.success 3 10 7 3 := by
      simp [runCompressionMod, runCompressionLoop]
    rw [hval] at heq
    exact absurd heq (by simp)

/-! ### MRG container: LBA table reader (`LBATable.read_lba_table`,
lines 1095-1149, claim C8) -/

/-- `int.from_bytes(f.read(4), 'little')` at byte offset `p` of the
container; a read truncated by end of file contributes zero high bytes,
exactly as Python's `int.from_bytes` of the shorter string. -/
def readLE4 (d : List Nat) (p : Nat) : Nat := leNum ((d.drop p).take 4)

/-- One raw 8-byte LBA entry, as the read loop of `read_lba_table`
(lines 1132-1143) sees it: `(file offset, file size, pointer location)`
for entry `i`, entries starting at offset 8; the offset is sector-scaled
by 0x800 when `sector_padding` is set. -/
def lbaEntry (d : List Nat) (sector_padding : Bool) (i : Nat) : Nat × Nat × Nat :=
  (if sector_padding then readLE4 d (8 + 8 * i) * 0x800 else readLE4 d (8 + 8 * i),
   readLE4 d (8 + 8 * i + 4), 8 + 8 * i)

/-- All `num_files` raw entries in table order. -/
def lbaEntriesRaw (d : List Nat) (sp : Bool) (n : Nat) : List (Nat × Nat × Nat) :=
  (List.range n).map (lbaEntry d sp)

/-- The key relation of `sort_together([file_locs, file_sizes, ptr_locs],
key_list=(0, 1))` (lines 1145-1147): lexicographic by offset then size. -/
def lbaLe (a b : Nat × Nat × Nat) : Bool :=
  decide (a.1 < b.1 ∨ (a.1 = b.1 ∧ a.2.1 ≤ b.2.1))

/-- `read_lba_table`: parse the `num_files` (second header word) entries
and co-sort the three parallel lists — here the zipped triples — stably
by (offset, size). -/
def read_lba_table (d : List Nat) (sp : Bool) : List (Nat × Nat × Nat) :=
  pySorted lbaLe (lbaEntriesRaw d sp (readLE4 d 4))

theorem lbaLe_total : ∀ a b, lbaLe a b = true ∨ lbaLe b a = true := by
  intro a b
  unfold lbaLe
  simp only [decide_eq_true_eq]
  omega

theorem lbaLe_trans : ∀ a b c, lbaLe a b = true → lbaLe b c = true → lbaLe a c = true := by
  intro a b c h1 h2
  unfold lbaLe at h1 h2 ⊢
  simp only [decide_eq_true_eq] at h1 h2 ⊢
  omega

/-- Claim C8: reading the LBA table of a container with header count `N`
produces exactly `N` `(offset, size, pointer-location)` entries — a
permutation of the raw table entries, so the three parallel lists stay
mutually consistent — sorted by offset first and size second; the raw
entry `i` sits at pointer location `8 + 8i`, its offset is the stored
word scaled by 0x800 exactly when sector padding is active, and its size
is the following word. -/
theorem c8_lba_table_read (d : List Nat) (sp : Bool) :
    (read_lba_table d sp).length = readLE4 d 4 ∧
    (read_lba_table d sp).Perm (lbaEntriesRaw d sp (readLE4 d 4)) ∧
    (read_lba_table d sp).Pairwise
      (fun a b => a.1 < b.1 ∨ (a.1 = b.1 ∧ a.2.1 ≤ b.2.1)) ∧
    (∀ i, i < readLE4 d 4 →
      (lbaEntriesRaw d sp (readLE4 d 4)).getD i (0, 0, 0) =
        (if sp then readLE4 d (8 + 8 * i) * 0x800 else readLE4 d (8 + 8 * i),
         readLE4 d (8 + 8 * i + 4), 8 + 8 * i)) := by
  refine ⟨?_, pySorted_perm _ _, ?_, ?_⟩
  · unfold read_lba_table
    rw [(pySorted_perm _ _).length_eq]
    simp [lbaEntriesRaw]
  · have := pySorted_pairwise lbaLe lbaLe_total lbaLe_trans
      (lbaEntriesRaw d sp (readLE4 d 4))
    refine this.imp ?_
    intro a b h
    simpa [lbaLe] using h
  · intro i hi
    unfold lbaEntriesRaw
    rw [List.getD_eq_getElem?_getD, List.getElem?_map]
    simp [List.getElem?_range hi, lbaEntry]

/-- Witness for C8 on a concrete container: header count 2, raw entries
(0x20, 4) then (0x18, 8) stored out of order, non-sector mode; also the
sector-scaled offset of entry 0. -/
theorem c8_witness :
    (read_lba_table
      [0x4d, 0x52, 0x47, 0x1a, 2, 0, 0, 0,
       0x20, 0, 0, 0, 4, 0, 0, 0, 0x18, 0, 0, 0, 8, 0, 0, 0] false).length = 2 ∧
    (lbaEntriesRaw
      [0x4d, 0x52, 0x47, 0x1a, 2, 0, 0, 0,
       0x20, 0, 0, 0, 4, 0, 0, 0, 0x18, 0, 0, 0, 8, 0, 0, 0] true 2).getD 0 (0, 0, 0) =
      (0x20 * 0x800, 4, 8) := by
  have h := c8_lba_table_read
    [0x4d, 0x52, 0x47, 0x1a, 2, 0, 0, 0,
     0x20, 0, 0, 0, 4, 0, 0, 0, 0x18, 0, 0, 0, 8, 0, 0, 0] false
  have h' := c8_lba_table_read
    [0x4d, 0x52, 0x47, 0x1a, 2, 0, 0, 0,
     0x20, 0, 0, 0, 4, 0, 0, 0, 0x18, 0, 0, 0, 8, 0, 0, 0] true
  constructor
  · have := h.1
    simpa using this
  · have := h'.2.2.2 0 (by decide)
    simpa using this

/-! ### MRG container: targeted insertion (`_insert_helper`,
lines 1520-1631, claims C4 and C9) -/

/-- Overwrite `bs` into `f` starting at byte `pos`: Python file `write`
at a seek position overwrites in place, extends the file when writing
past the current end, and zero-fills a gap beyond the end. -/
def writeBytes (f : List Nat) (pos : Nat) (bs : List Nat) : List Nat :=
  f.take pos ++ List.replicate (pos - f.length) 0 ++ bs ++ f.drop (pos + bs.length)

/-- `ceil(sz / align) * align` (the source computes it with float
division, `math.ceil(size / 0x800) * 0x800`; for the integer ranges
involved this is exact ceiling division). -/
def alignUp (sz align : Nat) : Nat := (sz + align - 1) / align * align

/-- The offset-shift loop of `_insert_helper` (lines 1624-1627):
`for i in range(num, len(lba_table)): file_locs[i] += size_enlarged_by`,
threaded with the running index. -/
def addDeltaFrom (num delta : Nat) : Nat → List Nat → List Nat
  | _, [] => []
  | i, x :: xs => (if num ≤ i then x + delta else x) :: addDeltaFrom num delta (i + 1) xs

/-- Result of one targeted insertion: new file bytes, updated offset and
size lists, and the measured enlargement (`size_enlarged_by`; 0 for an
in-place write; Python's value can be negative where this model floors
at 0 — the shift loop runs only when it is positive in both). -/
structure InsertResult where
  file : List Nat
  locs : List Nat
  sizes : List Nat
  delta : Nat

/-- One file's insertion in `_insert_helper` (lines 1575-1628), for file
number `num` (1-based) with table lists `locs`/`sizes` (0-indexed).  If
the new subfile fits its original allocation — its original size rounded
up to the sector (sector mode) or word (otherwise), or always for the
last file — it is written in place, word-padded with 0x8c when a
non-final file's size is unaligned in non-sector mode.  Otherwise the
bytes from the next file's offset on are read first, the new subfile is
written at the original offset followed by its padding, the saved tail
is appended immediately after, and — when the end of the padded subfile
passed the next file's old offset — every table offset from `num` on is
shifted by exactly that enlargement. -/
def insertHelperOne (sp : Bool) (f : List Nat) (locs sizes : List Nat)
    (num : Nat) (newData : List Nat) : InsertResult :=
  let n := locs.length
  let osize := sizes.getD (num - 1) 0
  let loc := locs.getD (num - 1) 0
  let fsize := newData.length
  if num = n ∨ (fsize ≤ alignUp osize 0x800 ∧ sp = true) ∨
      (fsize ≤ alignUp osize 4 ∧ sp = false) then
    let f1 := writeBytes f loc newData
    let f2 := if sp = false ∧ num ≠ n ∧ fsize % 4 ≠ 0 then
        writeBytes f1 (loc + fsize) (List.replicate (4 - fsize % 4) 0x8c)
      else f1
    ⟨f2, locs, sizes.set (num - 1) fsize, 0⟩
  else
    let nextLoc := locs.getD num 0
    let tail := f.drop nextLoc
    let f1 := writeBytes f loc newData
    let padLen := if sp = false ∧ num ≠ n ∧ fsize % 4 ≠ 0 then 4 - fsize % 4
      else if sp = true ∧ fsize % 0x800 ≠ 0 then 0x800 - fsize % 0x800
      else 0
    let f2 := writeBytes f1 (loc + fsize) (List.replicate padLen 0x8c)
    let endPos := loc + fsize + padLen
    let delta := endPos - nextLoc
    let f3 := writeBytes f2 endPos tail
    ⟨f3, if 0 < delta then addDeltaFrom num delta 0 locs else locs,
     sizes.set (num - 1) fsize, delta⟩

theorem writeBytes_of_le (f : List Nat) (pos : Nat) (bs : List Nat)
    (h : pos ≤ f.length) :
    writeBytes f pos bs = f.take pos ++ bs ++ f.drop (pos + bs.length) := by
  unfold writeBytes
  rw [Nat.sub_eq_zero_of_le h]
  simp

theorem addDeltaFrom_length (num delta : Nat) :
    ∀ l i, (addDeltaFrom num delta i l).length = l.length := by
  intro l
  induction l with
  | nil => intro i; rfl
  | cons x xs ih => intro i; simp [addDeltaFrom, ih]

theorem addDeltaFrom_getD (num delta : Nat) :
    ∀ l i j, (addDeltaFrom num delta i l).getD j 0 =
      if num ≤ i + j ∧ j < l.length then l.getD j 0 + delta else l.getD j 0 := by
  intro l
  induction l with
  | nil => intro i j; simp [addDeltaFrom]
  | cons x xs ih =>
    intro i j
    cases j with
    | zero =>
      simp only [addDeltaFrom, List.getD_cons_zero, Nat.add_zero, List.length_cons]
      split
      · rw [if_pos ⟨by omega, by omega⟩]
      · rw [if_neg (by omega)]
    | succ m =>
      simp only [addDeltaFrom, List.getD_cons_succ, List.length_cons]
      rw [ih (i + 1) m]
      by_cases hc : num ≤ i + 1 + m ∧ m < xs.length
      · rw [if_pos hc, if_pos ⟨by omega, by omega⟩]
      · rw [if_neg hc, if_neg (by omega)]

theorem writeBytes_left (l₁ l₂ bs : List Nat) (n : Nat) (h : l₁.length = n) :
    writeBytes (l₁ ++ l₂) n bs = l₁ ++ bs ++ l₂.drop bs.length := by
  unfold writeBytes
  subst h
  rw [List.take_left]
  rw [Nat.sub_eq_zero_of_le (by simp)]
  rw [List.drop_append bs.length]
  simp

theorem writeBytes_chain (f newData pad : List Nat) (L N : Nat)
    (hLf : L ≤ f.length) (hN : N ≤ f.length)
    (hend : N ≤ L + newData.length + pad.length) :
    writeBytes (writeBytes (writeBytes f L newData) (L + newData.length) pad)
        (L + newData.length + pad.length) (f.drop N) =
      f.take L ++ newData ++ pad ++ f.drop N := by
  have hLlen : (f.take L).length = L := by
    rw [List.length_take]
    omega
  have e1 : writeBytes f L newData =
      f.take L ++ newData ++ f.drop (L + newData.length) := by
    conv_lhs => rw [← List.take_append_drop L f]
    rw [writeBytes_left _ _ _ _ hLlen, List.drop_drop]
  have e2 : writeBytes (f.take L ++ newData ++ f.drop (L + newData.length))
      (L + newData.length) pad =
      f.take L ++ newData ++ pad ++ f.drop (L + newData.length + pad.length) := by
    rw [show f.take L ++ newData ++ f.drop (L + newData.length) =
      (f.take L ++ newData) ++ f.drop (L + newData.length) by simp [List.append_assoc]]
    rw [writeBytes_left (f.take L ++ newData) _ pad _ (by simp [hLlen])]
    rw [List.drop_drop]
  have e3 : writeBytes
      (f.take L ++ newData ++ pad ++ f.drop (L + newData.length + pad.length))
      (L + newData.length + pad.length) (f.drop N) =
      f.take L ++ newData ++ pad ++ f.drop N := by
    rw [show f.take L ++ newData ++ pad ++ f.drop (L + newData.length + pad.length) =
      (f.take L ++ newData ++ pad) ++ f.drop (L + newData.length + pad.length) by
        simp [List.append_assoc]]
    rw [writeBytes_left (f.take L ++ newData ++ pad) _ _ _ (by simp [hLlen]; omega)]
    have hnil : (f.drop (L + newData.length + pad.length)).drop (f.drop N).length = [] := by
      apply List.drop_eq_nil_of_le
      simp only [List.length_drop]
      omega
    rw [hnil]
    simp [List.append_assoc]
  rw [e1, e2, e3]

theorem getD_take_of_lt (l : List Nat) (n j : Nat) (h : j < n) :
    (l.take n).getD j 0 = l.getD j 0 := by
  rw [List.getD_eq_getElem?_getD, List.getD_eq_getElem?_getD, List.getElem?_take]
  simp [h]

theorem getD_drop' (l : List Nat) (n j : Nat) :
    (l.drop n).getD j 0 = l.getD (n + j) 0 := by
  rw [List.getD_eq_getElem?_getD, List.getD_eq_getElem?_getD, List.getElem?_drop]

theorem alignUp_four (s : Nat) :
    alignUp s 4 = s + (if s % 4 = 0 then 0 else 4 - s % 4) := by
  unfold alignUp
  split <;> omega

theorem alignUp_sector (s : Nat) :
    alignUp s 0x800 = s + (if s % 0x800 = 0 then 0 else 0x800 - s % 0x800) := by
  unfold alignUp
  split <;> omega

theorem le_alignUp (sp : Bool) (s : Nat) : s ≤ alignUp s (if sp then 0x800 else 4) := by
  cases sp
  · show s ≤ alignUp s 4
    unfold alignUp
    omega
  · show s ≤ alignUp s 0x800
    unfold alignUp
    omega

theorem padLen_eq (sp : Bool) (num n fsz : Nat) (hnum : num ≠ n) :
    (if sp = false ∧ num ≠ n ∧ fsz % 4 ≠ 0 then 4 - fsz % 4
     else if sp = true ∧ fsz % 0x800 ≠ 0 then 0x800 - fsz % 0x800 else 0)
    = alignUp fsz (if sp then 0x800 else 4) - fsz := by
  cases sp
  · by_cases h4 : fsz % 4 = 0
    · rw [if_neg (by simp [h4]), if_neg (by simp)]
      rw [if_neg (by simp)] at *
      rw [alignUp_four]
      simp [h4]
    · rw [if_pos ⟨rfl, hnum, h4⟩]
      rw [if_neg (by simp), alignUp_four]
      simp [h4]
  · by_cases h8 : fsz % 0x800 = 0
    · rw [if_neg (by simp), if_neg (by simp [h8]), if_pos rfl, alignUp_sector]
      simp [h8]
    · rw [if_neg (by simp), if_pos ⟨rfl, h8⟩, if_pos rfl, alignUp_sector]
      simp [h8]

theorem insertHelperOne_shift (sp : Bool) (f locs sizes : List Nat) (num : Nat)
    (newData : List Nat)
    (h2 : num < locs.length)
    (hfit : alignUp (sizes.getD (num - 1) 0) (if sp then 0x800 else 4) < newData.length) :
    insertHelperOne sp f locs sizes num newData =
      ⟨writeBytes (writeBytes (writeBytes f (locs.getD (num - 1) 0) newData)
          (locs.getD (num - 1) 0 + newData.length)
          (List.replicate
            (alignUp newData.length (if sp then 0x800 else 4) - newData.length) 0x8c))
        (locs.getD (num - 1) 0 + newData.length +
          (alignUp newData.length (if sp then 0x800 else 4) - newData.length))
        (f.drop (locs.getD num 0)),
       if 0 < locs.getD (num - 1) 0 + newData.length +
           (alignUp newData.length (if sp then 0x800 else 4) - newData.length) -
           locs.getD num 0 then
         addDeltaFrom num
           (locs.getD (num - 1) 0 + newData.length +
             (alignUp newData.length (if sp then 0x800 else 4) - newData.length) -
             locs.getD num 0) 0 locs
       else locs,
       sizes.set (num - 1) newData.length,
       locs.getD (num - 1) 0 + newData.length +
         (alignUp newData.length (if sp then 0x800 else 4) - newData.length) -
         locs.getD num 0⟩ := by
  have hnum : num ≠ locs.length := by omega
  have hcond : ¬ (num = locs.length ∨
      (newData.length ≤ alignUp (sizes.getD (num - 1) 0) 0x800 ∧ sp = true) ∨
      (newData.length ≤ alignUp (sizes.getD (num - 1) 0) 4 ∧ sp = false)) := by
    rintro (h | ⟨hle, hsp⟩ | ⟨hle, hsp⟩)
    · exact hnum h
    · subst hsp
      rw [if_pos rfl] at hfit
      omega
    · subst hsp
      rw [if_neg (by simp)] at hfit
      omega
  unfold insertHelperOne
  rw [if_neg hcond]
  simp only [padLen_eq sp num locs.length newData.length hnum]

/-- Claim C4: inserting a replacement subfile at 1-based file number `num`
that does not fit its original allocation (its original size rounded up to
the mode's alignment), into a container whose next table entry starts
right after that allocation.  The enlargement `delta` is exactly the new
padded size minus the original allocation; every table offset from `num`
on is shifted by exactly `delta` while earlier offsets are untouched; the
container becomes: unchanged prefix, the new subfile, its 0x8c padding,
then the preserved trailing bytes exactly as they followed the original
allocation; bytes before the subfile are unchanged and every byte that
followed the original allocation reappears shifted by `delta`, so the
contents of every other subfile (offsets resorted by `delta` for the
following ones) are unchanged. -/
theorem c4_offset_shift_correct (sp : Bool) (f : List Nat)
    (locs sizes : List Nat) (num : Nat) (newData : List Nat) (res : InsertResult)
    (h1 : 1 ≤ num) (h2 : num < locs.length)
    (hcont : locs.getD num 0 = locs.getD (num - 1) 0 +
      alignUp (sizes.getD (num - 1) 0) (if sp then 0x800 else 4))
    (hfit : alignUp (sizes.getD (num - 1) 0) (if sp then 0x800 else 4) < newData.length)
    (hflen : locs.getD num 0 ≤ f.length)
    (hres : insertHelperOne sp f locs sizes num newData = res) :
    res.delta = alignUp newData.length (if sp then 0x800 else 4) -
      alignUp (sizes.getD (num - 1) 0) (if sp then 0x800 else 4) ∧
    0 < res.delta ∧
    res.file = f.take (locs.getD (num - 1) 0) ++ newData ++
      List.replicate
        (alignUp newData.length (if sp then 0x800 else 4) - newData.length) 0x8c ++
      f.drop (locs.getD num 0) ∧
    res.sizes = sizes.set (num - 1) newData.length ∧
    res.locs.length = locs.length ∧
    (∀ i, i < num → res.locs.getD i 0 = locs.getD i 0) ∧
    (∀ i, num ≤ i → i < locs.length → res.locs.getD i 0 = locs.getD i 0 + res.delta) ∧
    (∀ j, j < locs.getD (num - 1) 0 → res.file.getD j 0 = f.getD j 0) ∧
    (∀ j, res.file.getD (locs.getD num 0 + res.delta + j) 0 =
      f.getD (locs.getD num 0 + j) 0) ∧
    (∀ i j, num ≤ i → i < locs.length → locs.getD num 0 ≤ locs.getD i 0 →
      res.file.getD (res.locs.getD i 0 + j) 0 = f.getD (locs.getD i 0 + j) 0) := by
  rw [insertHelperOne_shift sp f locs sizes num newData h2 hfit] at hres
  subst hres
  have hfszP := le_alignUp sp newData.length
  have hLN : locs.getD (num - 1) 0 ≤ locs.getD num 0 := by omega
  have hLf : locs.getD (num - 1) 0 ≤ f.length := by omega
  have hDval : locs.getD (num - 1) 0 + newData.length +
      (alignUp newData.length (if sp then 0x800 else 4) - newData.length) -
      locs.getD num 0 =
      alignUp newData.length (if sp then 0x800 else 4) -
        alignUp (sizes.getD (num - 1) 0) (if sp then 0x800 else 4) := by
    omega
  have hDpos : 0 < locs.getD (num - 1) 0 + newData.length +
      (alignUp newData.length (if sp then 0x800 else 4) - newData.length) -
      locs.getD num 0 := by
    omega
  have hend : locs.getD num 0 ≤ locs.getD (num - 1) 0 + newData.length +
      (List.replicate
        (alignUp newData.length (if sp then 0x800 else 4) - newData.length)
        (0x8c : Nat)).length := by
    rw [List.length_replicate]
    omega
  have hchain := writeBytes_chain f newData
    (List.replicate
      (alignUp newData.length (if sp then 0x800 else 4) - newData.length) 0x8c)
    (locs.getD (num - 1) 0) (locs.getD num 0) hLf hflen hend
  rw [List.length_replicate] at hchain
  have hfile : writeBytes (writeBytes (writeBytes f (locs.getD (num - 1) 0) newData)
      (locs.getD (num - 1) 0 + newData.length)
      (List.replicate
        (alignUp newData.length (if sp then 0x800 else 4) - newData.length) 0x8c))
      (locs.getD (num - 1) 0 + newData.length +
        (alignUp newData.length (if sp then 0x800 else 4) - newData.length))
      (f.drop (locs.getD num 0)) =
      f.take (locs.getD (num - 1) 0) ++ newData ++
        List.replicate
          (alignUp newData.length (if sp then 0x800 else 4) - newData.length) 0x8c ++
        f.drop (locs.getD num 0) := hchain
  have hpre : (f.take (locs.getD (num - 1) 0) ++ newData ++
      List.replicate
        (alignUp newData.length (if sp then 0x800 else 4) - newData.length) 0x8c).length =
      locs.getD num 0 + (locs.getD (num - 1) 0 + newData.length +
        (alignUp newData.length (if sp then 0x800 else 4) - newData.length) -
        locs.getD num 0) := by
    simp only [List.length_append, List.length_take, List.length_replicate]
    omega
  have htail : ∀ j, (f.take (locs.getD (num - 1) 0) ++ newData ++
      List.replicate
        (alignUp newData.length (if sp then 0x800 else 4) - newData.length) 0x8c ++
      f.drop (locs.getD num 0)).getD
        (locs.getD num 0 + (locs.getD (num - 1) 0 + newData.length +
          (alignUp newData.length (if sp then 0x800 else 4) - newData.length) -
          locs.getD num 0) + j) 0 = f.getD (locs.getD num 0 + j) 0 := by
    intro j
    rw [List.getD_append_right _ _ _ _ (by rw [hpre]; omega)]
    rw [hpre]
    have harith : locs.getD num 0 + (locs.getD (num - 1) 0 + newData.length +
        (alignUp newData.length (if sp then 0x800 else 4) - newData.length) -
        locs.getD num 0) + j -
        (locs.getD num 0 + (locs.getD (num - 1) 0 + newData.length +
        (alignUp newData.length (if sp then 0x800 else 4) - newData.length) -
        locs.getD num 0)) = j := by omega
    rw [harith]
    exact getD_drop' f _ j
  refine ⟨hDval, hDpos, hfile, rfl, ?_, ?_, ?_, ?_, ?_, ?_⟩
  · simp only [if_pos hDpos]
    exact addDeltaFrom_length _ _ _ _
  · intro i hi
    simp only [if_pos hDpos]
    rw [addDeltaFrom_getD]
    rw [if_neg (by omega)]
  · intro i hge hlt
    simp only [if_pos hDpos]
    rw [addDeltaFrom_getD]
    rw [if_pos ⟨by omega, hlt⟩]
  · intro j hj
    simp only [hfile]
    rw [List.getD_append _ _ _ _
      (by simp only [List.length_append, List.length_take]; omega)]
    rw [List.getD_append _ _ _ _
      (by simp only [List.length_append, List.length_take]; omega)]
    rw [List.getD_append _ _ _ _ (by rw [List.length_take]; omega)]
    exact getD_take_of_lt f _ j hj
  · intro j
    simp only [hfile]
    exact htail j
  · intro i j hge hlt hsorted
    simp only [hfile, if_pos hDpos]
    rw [addDeltaFrom_getD]
    rw [if_pos (⟨by omega, hlt⟩ : num ≤ 0 + i ∧ i < locs.length)]
    calc (f.take (locs.getD (num - 1) 0) ++ newData ++
          List.replicate
            (alignUp newData.length (if sp then 0x800 else 4) - newData.length) 0x8c ++
          f.drop (locs.getD num 0)).getD
          (locs.getD i 0 + (locs.getD (num - 1) 0 + newData.length +
            (alignUp newData.length (if sp then 0x800 else 4) - newData.length) -
            locs.getD num 0) + j) 0
        = (f.take (locs.getD (num - 1) 0) ++ newData ++
          List.replicate
            (alignUp newData.length (if sp then 0x800 else 4) - newData.length) 0x8c ++
          f.drop (locs.getD num 0)).getD
          (locs.getD num 0 + (locs.getD (num - 1) 0 + newData.length +
            (alignUp newData.length (if sp then 0x800 else 4) - newData.length) -
            locs.getD num 0) + (locs.getD i 0 - locs.getD num 0 + j)) 0 := by
          congr 1
          omega
      _ = f.getD (locs.getD num 0 + (locs.getD i 0 - locs.getD num 0 + j)) 0 :=
          htail (locs.getD i 0 - locs.getD num 0 + j)
      _ = f.getD (locs.getD i 0 + j) 0 := by
          congr 1
          omega

/-- Witness for C4: a 0x30-byte container with table offsets
`[0x20, 0x24, 0x2c]` and sizes `[4, 8, 4]`; a 12-byte replacement for
file 2 (allocation 8) enlarges by `alignUp 12 4 - alignUp 8 4 = 4` and
shifts the third entry's offset by that delta. -/
theorem c4_witness :
    ∃ res, insertHelperOne false (List.replicate 0x30 0xaa)
        [0x20, 0x24, 0x2c] [4, 8, 4] 2 (List.replicate 12 0xbb) = res ∧
      res.delta = alignUp (List.replicate 12 (0xbb : Nat)).length 4 -
        alignUp ([4, 8, 4].getD 1 0) 4 ∧
      0 < res.delta ∧
      (∀ i, 2 ≤ i → i < 3 →
        res.locs.getD i 0 = [0x20, 0x24, 0x2c].getD i 0 + res.delta) := by
  have h := c4_offset_shift_correct false (List.replicate 0x30 0xaa)
    [0x20, 0x24, 0x2c] [4, 8, 4] 2 (List.replicate 12 0xbb)
    (insertHelperOne false (List.replicate 0x30 0xaa)
      [0x20, 0x24, 0x2c] [4, 8, 4] 2 (List.replicate 12 0xbb))
    (by decide) (by decide) (by decide) (by decide) (by decide) rfl
  exact ⟨_, rfl, h.1, h.2.1, fun i h2i hi3 => h.2.2.2.2.2.2.1 i h2i hi3⟩

/-- The per-file extraction of `extract_files` (lines 1238-1290): verify
the `MRG\x1a` header (else skip), bail out on an empty table
(line 1250); file number 0 is the LBA table region itself (offset 0,
`lba_table_len + 8` bytes); a file number beyond the table is reported
and skipped (`IndexError` handler); otherwise the span
`[file_locs[num-1], +file_sizes[num-1])` is copied out (a span past the
end of the container is truncated, as Python `read` is). -/
def extract_file (d : List Nat) (sp : Bool) (num : Nat) : Option (List Nat) :=
  if d.take 4 ≠ [0x4d, 0x52, 0x47, 0x1a] then none
  else if readLE4 d 4 = 0 then none
  else
    let t := read_lba_table d sp
    if num = 0 then some (d.take (8 * readLE4 d 4 + 8))
    else if t.length < num then none
    else some ((d.drop ((t.getD (num - 1) (0, 0, 0)).1)).take
      ((t.getD (num - 1) (0, 0, 0)).2.1))

/-- Counterexample to C9 as stated: on the container with header count 2
and entries `[(0x18, 4), (0x1C, 8)]`, extracting index 1 — file
numbering starts at 1 in `extract_files`, with file 0 the LBA table —
yields the 4-byte subfile at offset 0x18, not an 8-byte file from
0x1C. -/
theorem c9_counterexample_index_one :
    extract_file
      [0x4d, 0x52, 0x47, 0x1a, 2, 0, 0, 0,
       0x18, 0, 0, 0, 4, 0, 0, 0, 0x1c, 0, 0, 0, 8, 0, 0, 0,
       0xa0, 0xa1, 0xa2, 0xa3, 0xb0, 0xb1, 0xb2, 0xb3, 0xb4, 0xb5, 0xb6, 0xb7]
      false 1 = some [0xa0, 0xa1, 0xa2, 0xa3] ∧
    (extract_file
      [0x4d, 0x52, 0x47, 0x1a, 2, 0, 0, 0,
       0x18, 0, 0, 0, 4, 0, 0, 0, 0x1c, 0, 0, 0, 8, 0, 0, 0,
       0xa0, 0xa1, 0xa2, 0xa3, 0xb0, 0xb1, 0xb2, 0xb3, 0xb4, 0xb5, 0xb6, 0xb7]
      false 1).map List.length ≠ some 8 := by
  constructor
  · rfl
  · decide

/-- Claim C9 (amended, 1-based file numbering): on the scenario container
the 8-byte subfile at 0x1C is file number 2; extracting file 2 yields
exactly those 8 bytes.  For the insertion half the hypothetical entry
after the replaced one is realised as a third table entry: in a container
with entries `[(0x20, 4), (0x24, 8), (0x2c, 4)]`, inserting a 12-byte
replacement as file 2 produces enlargement 4 and shifts the third
entry's offset from 0x2c to 0x30, sizes becoming `[4, 12, 4]`. -/
theorem c9_scenario_amended :
    read_lba_table
      [0x4d, 0x52, 0x47, 0x1a, 2, 0, 0, 0,
       0x18, 0, 0, 0, 4, 0, 0, 0, 0x1c, 0, 0, 0, 8, 0, 0, 0,
       0xa0, 0xa1, 0xa2, 0xa3, 0xb0, 0xb1, 0xb2, 0xb3, 0xb4, 0xb5, 0xb6, 0xb7]
      false = [(0x18, 4, 8), (0x1c, 8, 16)] ∧
    extract_file
      [0x4d, 0x52, 0x47, 0x1a, 2, 0, 0, 0,
       0x18, 0, 0, 0, 4, 0, 0, 0, 0x1c, 0, 0, 0, 8, 0, 0, 0,
       0xa0, 0xa1, 0xa2, 0xa3, 0xb0, 0xb1, 0xb2, 0xb3, 0xb4, 0xb5, 0xb6, 0xb7]
      false 2 = some [0xb0, 0xb1, 0xb2, 0xb3, 0xb4, 0xb5, 0xb6, 0xb7] ∧
    (insertHelperOne false
      [0x4d, 0x52, 0x47, 0x1a, 3, 0, 0, 0,
       0x20, 0, 0, 0, 4, 0, 0, 0, 0x24, 0, 0, 0, 8, 0, 0, 0,
       0x2c, 0, 0, 0, 4, 0, 0, 0,
       0xa0, 0xa1, 0xa2, 0xa3, 0xb0, 0xb1, 0xb2, 0xb3, 0xb4, 0xb5, 0xb6, 0xb7,
       0xc0, 0xc1, 0xc2, 0xc3]
      [0x20, 0x24, 0x2c] [4, 8, 4] 2
      [0xd0, 0xd1, 0xd2, 0xd3, 0xd4, 0xd5, 0xd6, 0xd7, 0xd8, 0xd9, 0xda, 0xdb]).delta
      = 4 ∧
    (insertHelperOne false
      [0x4d, 0x52, 0x47, 0x1a, 3, 0, 0, 0,
       0x20, 0, 0, 0, 4, 0, 0, 0, 0x24, 0, 0, 0, 8, 0, 0, 0,
       0x2c, 0, 0, 0, 4, 0, 0, 0,
       0xa0, 0xa1, 0xa2, 0xa3, 0xb0, 0xb1, 0xb2, 0xb3, 0xb4, 0xb5, 0xb6, 0xb7,
       0xc0, 0xc1, 0xc2, 0xc3]
      [0x20, 0x24, 0x2c] [4, 8, 4] 2
      [0xd0, 0xd1, 0xd2, 0xd3, 0xd4, 0xd5, 0xd6, 0xd7, 0xd8, 0xd9, 0xda, 0xdb]).locs
      = [0x20, 0x24, 0x30] ∧
    (insertHelperOne false
      [0x4d, 0x52, 0x47, 0x1a, 3, 0, 0, 0,
       0x20, 0, 0, 0, 4, 0, 0, 0, 0x24, 0, 0, 0, 8, 0, 0, 0,
       0x2c, 0, 0, 0, 4, 0, 0, 0,
       0xa0, 0xa1, 0xa2, 0xa3, 0xb0, 0xb1, 0xb2, 0xb3, 0xb4, 0xb5, 0xb6, 0xb7,
       0xc0, 0xc1, 0xc2, 0xc3]
      [0x20, 0x24, 0x2c] [4, 8, 4] 2
      [0xd0, 0xd1, 0xd2, 0xd3, 0xd4, 0xd5, 0xd6, 0xd7, 0xd8, 0xd9, 0xda, 0xdb]).sizes
      = [4, 12, 4] := by
  refine ⟨rfl, rfl, rfl, rfl, rfl⟩

/-! ### Adequacy of the decompressor's iteration bound

The block loop consumes at least one stream byte per iteration and no
helper ever moves the read position backwards, so the `d.length + 1`
bound used by `decompressBPE` can never be exhausted: `.outOfFuel` is
unreachable and the fuel is semantically invisible. -/

theorem readByte_pos_mono (d : List Nat) (p : Nat) : p ≤ (readByte d p).2 := by
  unfold readByte
  split <;> simp

theorem fillEntries_pos_mono (d : List Nat) :
    ∀ cnt lc rc key p, p ≤ (fillEntries d cnt lc rc key p).2.2.2 := by
  intro cnt
  induction cnt with
  | zero => intro lc rc key p; exact Nat.le_refl p
  | succ n ih =>
    intro lc rc key p
    rw [fillEntries]
    split
    · refine le_trans (readByte_pos_mono d p) ?_
      refine le_trans (readByte_pos_mono d (readByte d p).2) ?_
      exact ih _ _ _ _
    · exact le_trans (readByte_pos_mono d p) (ih _ _ _ _)

theorem buildDictStep_pos_mono (d : List Nat) (lc : Nat → Nat)
    (rc : Nat → Option Nat) (key p : Nat) :
    p ≤ (buildDictStep d lc rc key p).2.2.2 := by
  simp only [buildDictStep]
  split <;> split <;>
    first
      | exact le_trans (readByte_pos_mono d p) (fillEntries_pos_mono d _ _ _ _ _)
      | exact readByte_pos_mono d p

theorem buildDictLoop_pos_mono (d : List Nat) :
    ∀ fuel lc rc key p, p ≤ (buildDictLoop d fuel lc rc key p).2.2 := by
  intro fuel
  induction fuel with
  | zero => intro lc rc key p; exact Nat.le_refl p
  | succ f ih =>
    intro lc rc key p
    rw [buildDictLoop]
    split
    · exact le_trans (buildDictStep_pos_mono d lc rc key p) (ih _ _ _ _)
    · exact Nat.le_refl p

theorem buildDict_pos_mono (d : List Nat) (p : Nat) :
    p ≤ (buildDict d p).2.2 :=
  buildDictLoop_pos_mono d 0x100 _ _ 0 p

theorem decodeBlock_pos_mono (d : List Nat) (lc : Nat → Nat)
    (rc : Nat → Option Nat) (keep : Bool) :
    ∀ remaining p acc pr, decodeBlock d lc rc keep remaining p acc = some pr →
      p ≤ pr.2 := by
  intro remaining p acc
  induction remaining, p, acc using decodeBlock.induct d lc rc keep with
  | case1 p acc =>
    intro pr hpr
    rw [decodeBlock, if_pos rfl] at hpr
    cases hpr
    exact Nat.le_refl p
  | case2 remaining p acc hrem hres =>
    intro pr hpr
    rw [decodeBlock, if_neg hrem] at hpr
    split at hpr
    · exact Option.noConfusion hpr
    · rename_i l' hl'
      rw [hres] at hl'
      exact Option.noConfusion hl'
  | case3 remaining p acc hrem l hres ih =>
    intro pr hpr
    rw [decodeBlock, if_neg hrem] at hpr
    split at hpr
    · rename_i hnone
      rw [hres] at hnone
      exact Option.noConfusion hnone
    · rename_i l' hl'
      rw [hres] at hl'
      have hll : l = l' := by simpa using hl'
      subst hll
      exact le_trans (readByte_pos_mono d p) (ih pr hpr)

theorem readWord4_progress (d : List Nat) (p : Nat)
    (h : (readWord4 d p).1 ≠ []) : p + 1 ≤ (readWord4 d p).2 := by
  unfold readWord4 at h ⊢
  simp only []
  have : ((d.drop p).take 4).length ≠ 0 := by
    intro h0
    exact h (List.length_eq_zero.mp h0)
  omega

theorem readWord4_pos_lt (d : List Nat) (p : Nat)
    (h : (readWord4 d p).1 ≠ []) : p < d.length := by
  by_contra hge
  apply h
  unfold readWord4
  simp only []
  rw [List.drop_eq_nil_of_le (by omega)]
  rfl

theorem decompressLoop_no_fuel_exhaustion (d : List Nat) (sb eb : Nat) :
    ∀ (fuel p block : Nat) (out sizes : List Nat), 1 ≤ fuel →
      d.length + 1 ≤ p + fuel →
      decompressLoop d sb eb fuel p block out sizes ≠
        Except.error DecompErr.outOfFuel := by
  intro fuel
  induction fuel with
  | zero => intro p block out sizes h1 _; omega
  | succ f ih =>
    intro p block out sizes _ hbound
    rw [decompressLoop]
    by_cases h1 : (readWord4 d p).1 = [] ∨ (readWord4 d p).1 = [0, 0, 0, 0]
    · rw [if_pos h1]; simp
    · rw [if_neg h1]
      by_cases h2 : 0x800 < leNum (readWord4 d p).1
      · rw [if_pos h2]; simp
      · rw [if_neg h2]
        by_cases h3 : eb ≤ block ∧ sb ≤ block
        · rw [if_pos h3]; simp
        · rw [if_neg h3]
          have hne : (readWord4 d p).1 ≠ [] := fun hnil => h1 (Or.inl hnil)
          have hplt : p < d.length := readWord4_pos_lt d p hne
          have hstep : p + 1 ≤ (readWord4 d p).2 := readWord4_progress d p hne
          cases hdec : decodeBlock d (buildDict d (readWord4 d p).2).1
              (buildDict d (readWord4 d p).2).2.1 (decide (sb ≤ block))
              (leNum (readWord4 d p).1) (buildDict d (readWord4 d p).2).2.2 out with
          | none => simp
          | some pr =>
            simp only []
            have hpr : (readWord4 d p).2 ≤ pr.2 :=
              le_trans (buildDict_pos_mono d (readWord4 d p).2)
                (decodeBlock_pos_mono d _ _ _ _ _ _ pr hdec)
            have halign : pr.2 ≤ (if pr.2 % 4 ≠ 0 then pr.2 + (4 - pr.2 % 4) else pr.2) := by
              split <;> omega
            exact ih _ (block + 1) pr.1 _ (by omega) (by omega)

/-- `decompressBPE` itself can never hit the bound: its fuel is one more
than the stream length and the loop starts at position 8. -/
theorem decompressBPE_no_fuel_exhaustion (d : List Nat) (sb eb : Nat) :
    decompressBPE d sb eb ≠ Except.error DecompErr.outOfFuel := by
  unfold decompressBPE
  exact decompressLoop_no_fuel_exhaustion d sb _ (d.length + 1) 8 0 [] []
    (by omega) (by omega)

/-- Converse direction for the C3 correspondence: the embedded
decompressor reports the invalid-block-size error only when the
traversal really reaches a size word above 0x800, so `scanInvalidSize`
characterises that error exactly. -/
theorem scanInvalidSize_of_error (d : List Nat) (sb eb : Nat) :
    ∀ (fuel p block : Nat) (out sizes : List Nat),
      decompressLoop d sb eb fuel p block out sizes =
        Except.error DecompErr.invalidBlockSize →
      scanInvalidSize d sb eb fuel p block out sizes = true := by
  intro fuel
  induction fuel with
  | zero => intro p block out sizes h; simp [decompressLoop] at h
  | succ f ih =>
    intro p block out sizes h
    rw [decompressLoop] at h
    rw [scanInvalidSize]
    by_cases h1 : (readWord4 d p).1 = [] ∨ (readWord4 d p).1 = [0, 0, 0, 0]
    · rw [if_pos h1] at h; simp at h
    · rw [if_neg h1] at h
      rw [if_neg h1]
      by_cases h2 : 0x800 < leNum (readWord4 d p).1
      · rw [if_pos h2]
      · rw [if_neg h2] at h
        rw [if_neg h2]
        by_cases h3 : eb ≤ block ∧ sb ≤ block
        · rw [if_pos h3] at h; simp at h
        · rw [if_neg h3] at h
          rw [if_neg h3]
          cases hdec : decodeBlock d (buildDict d (readWord4 d p).2).1
              (buildDict d (readWord4 d p).2).2.1 (decide (sb ≤ block))
              (leNum (readWord4 d p).1) (buildDict d (readWord4 d p).2).2.2 out with
          | none => rw [hdec] at h; simp at h
          | some pr4 =>
            rw [hdec] at h
            exact ih _ _ _ _ h
